import Mathlib

/-!
Verification development for the vector_dbc CAN database library.

The definitions below are a shallow embedding of the Python sources under
src/vector_dbc (message.py, utils.py, can_data.py, signal.py, sg_mul_val.py
and frame_id/).  Python numbers (int, float, decimal.Decimal) are modelled
by exact rationals; machine-level packing is modelled by natural numbers
with explicit powers of two.  Fallible Python code (raising exceptions) is
modelled with Except over an explicit error type whose constructors mirror
the Python exception classes.  IEEE-754 float *signals* (is_float = true)
are the one part that is not modelled: packing or scaling such a signal
yields the distinguished error floatNotModelled, and every theorem below
restricts itself to non-float signals.
-/

set_option maxRecDepth 10000

namespace VectorDbc

/-- The byte_order strings of the source, as a two-element type. -/
inductive ByteOrder
  | big_endian
  | little_endian
deriving DecidableEq

/-- A Python value appearing in an encode/decode data dictionary: either a
choice string or a number.  The rational of num is the exact mathematical
value of the Python int / float / Decimal. -/
inductive PyVal
  | str (s : String)
  | num (q : ℚ)
deriving DecidableEq

/-- Python exceptions raised by the modelled code.  The constructors mirror
errors.Error, errors.EncodeError, errors.DecodeError and the builtin
KeyError / AttributeError / TypeError, plus the exception raised by the
bitstruct package on out-of-range field values, a marker for the
unmodelled IEEE-754 field packing, and a marker for exhausted recursion
fuel (the Python recursion is unbounded and can only loop on cyclic
multiplexer graphs, where CPython raises RecursionError). -/
inductive PyErr
  | error (msg : String)
  | encodeError (msg : String)
  | decodeError (msg : String)
  | keyError (msg : String)
  | attributeError (msg : String)
  | typeError (msg : String)
  | bitstructError (msg : String)
  | floatNotModelled
  | recursionLimit
deriving DecidableEq

/-- Decidable equality for Except results, used to state concrete
evaluations of the modelled operations. -/
instance {ε α : Type} [DecidableEq ε] [DecidableEq α] : DecidableEq (Except ε α) := fun a b =>
  match a, b with
  | Except.ok x, Except.ok y => decidable_of_iff (x = y) (by simp)
  | Except.error x, Except.error y => decidable_of_iff (x = y) (by simp)
  | Except.ok _, Except.error _ => isFalse (by simp)
  | Except.error _, Except.ok _ => isFalse (by simp)

/-- A Python dict with string keys, as an association list in insertion
order (first occurrence of a key is authoritative; dictSet keeps the
position of an existing key, as Python dicts do). -/
abbrev Dict (α : Type) := List (String × α)

/-- Lookup in a Python dict. -/
def dictGet {α : Type} (d : Dict α) (k : String) : Option α :=
  (d.find? (fun p => p.1 == k)).map Prod.snd

/-- Python d[k] = v: overwrite in place if the key exists, else append. -/
def dictSet {α : Type} (d : Dict α) (k : String) (v : α) : Dict α :=
  if (d.find? (fun p => p.1 == k)).isSome then
    d.map (fun p => if p.1 == k then (k, v) else p)
  else d ++ [(k, v)]

/-- Python d.update(e). -/
def dictUpdate {α : Type} (d e : Dict α) : Dict α :=
  e.foldl (fun acc p => dictSet acc p.1 p.2) d

/-- A CAN signal (signal.py, class Signal).  Attribute-store lookups that
the codec consumes are flattened into fields: gen_sig_start_value is the
value of the GenSigStartValue attribute when it is set.  Python None
becomes Option.none.  The choices dict is an association list from raw
integer to display string. -/
structure Sig where
  name : String
  start : Nat
  length : Nat
  byte_order : ByteOrder := ByteOrder.little_endian
  is_signed : Bool := false
  is_float : Bool := false
  scale : ℚ := 1
  offset : ℚ := 0
  minimum : Option ℚ := none
  maximum : Option ℚ := none
  choices : Option (List (ℤ × String)) := none
  gen_sig_start_value : Option ℚ := none
  multiplexer_signal : Option String := none
  multiplexer_ids : List ℤ := []
  is_multiplexer : Bool := false
deriving DecidableEq

/-- utils.start_bit. -/
def start_bit (data : Sig) : Nat :=
  if data.byte_order = ByteOrder.big_endian then
    8 * (data.start / 8) + (7 - data.start % 8)
  else data.start

/-- One entry of a compiled bitstruct format string
(utils.create_encode_decode_formats): a p<len> padding item or a
u<len> / s<len> / f<len> field item carrying its signal. -/
inductive PackItem
  | pad (len : Nat)
  | fld (s : Sig)
deriving DecidableEq

/-- Bit width of a format item. -/
def PackItem.bitLen : PackItem → Nat
  | .pad n => n
  | .fld s => s.length

/-- Total bit width of a format. -/
def itemsTotal (items : List PackItem) : Nat :=
  (items.map PackItem.bitLen).sum

/-- The loop body of create_big in utils.create_encode_decode_formats:
scan the signals, skip little-endian ones, emit a padding item for any gap
before the signal's start_bit, then the signal item; finally pad up to
format_length. -/
def createBigGo (format_length : Nat) : List Sig → Nat → List PackItem
  | [], start =>
      if start < format_length then [PackItem.pad (format_length - start)] else []
  | d :: rest, start =>
      if d.byte_order = ByteOrder.little_endian then createBigGo format_length rest start
      else
        (if start < start_bit d then [PackItem.pad (start_bit d - start)] else []) ++
          PackItem.fld d :: createBigGo format_length rest (start_bit d + d.length)

/-- create_big of utils.create_encode_decode_formats (items only). -/
def createBigItems (datas : List Sig) (format_length : Nat) : List PackItem :=
  createBigGo format_length datas 0

/-- The loop body of create_little: scan the signals in reverse, skip
big-endian ones, pad from the running end cursor down to start+length,
emit the signal, move the cursor to start; finally pad down to 0. -/
def createLittleGo : List Sig → Nat → List PackItem
  | [], e => if 0 < e then [PackItem.pad e] else []
  | d :: rest, e =>
      if d.byte_order = ByteOrder.big_endian then createLittleGo rest e
      else
        (if d.start + d.length < e then [PackItem.pad (e - (d.start + d.length))] else []) ++
          PackItem.fld d :: createLittleGo rest d.start

/-- create_little of utils.create_encode_decode_formats (items only). -/
def createLittleItems (datas : List Sig) (format_length : Nat) : List PackItem :=
  createLittleGo datas.reverse format_length

/-- The padding_mask helper of create_encode_decode_formats:
int of the concatenated mask bits (all-ones for padding items, all-zeros
for field items), MSB first; the empty concatenation gives 0 via the
ValueError handler. -/
def maskAcc : List PackItem → Nat → Nat
  | [], acc => acc
  | .pad n :: rest, acc => maskAcc rest (acc * 2 ^ n + (2 ^ n - 1))
  | .fld s :: rest, acc => maskAcc rest (acc * 2 ^ s.length)

/-- Padding mask of a format, as an integer. -/
def maskOfItems (items : List PackItem) : Nat := maskAcc items 0

/-- Reverse the byte order of the low n bytes of a natural number
(the Python bytes[::-1] on an n-byte buffer, read back as a big-endian
integer). -/
def reverseBytes : Nat → Nat → Nat
  | 0, _ => 0
  | n + 1, x => x % 256 * 2 ^ (8 * n) + reverseBytes n (x / 256)

/-- Byte length of a packed format (bitstruct pads the last byte). -/
def packBytesLen (items : List PackItem) : Nat := (itemsTotal items + 7) / 8

/-- Number of zero bits bitstruct appends after the last item to reach a
byte boundary. -/
def packPadBits (items : List PackItem) : Nat :=
  packBytesLen items * 8 - itemsTotal items

/-- The little-endian padding-mask post-processing of create_little: the
mask integer is packed into bytes, the bytes are reversed, and the result
is read back as an integer (skipped when format_length is 0). -/
def littleMaskValue (items : List PackItem) (format_length : Nat) : Nat :=
  if 0 < format_length then
    reverseBytes (packBytesLen items) (maskOfItems items * 2 ^ packPadBits items)
  else maskOfItems items

/-- The Formats named tuple of utils.py: the two compiled packing programs
and the combined padding mask. -/
structure Formats where
  big_endian : List PackItem
  little_endian : List PackItem
  padding_mask : Nat
deriving DecidableEq

/-- utils.create_encode_decode_formats. -/
def create_encode_decode_formats (datas : List Sig) (number_of_bytes : Nat) : Formats :=
  let format_length := 8 * number_of_bytes
  let big := createBigItems datas format_length
  let little := createLittleItems datas format_length
  { big_endian := big
    little_endian := little
    padding_mask := maskOfItems big &&& littleMaskValue little format_length }

/-- Round an exact rational to an integer, half to even: the semantics of
decimal.Decimal.to_integral() under the default ROUND_HALF_EVEN context
used by utils._encode_field. -/
def roundHalfEven (q : ℚ) : ℤ :=
  if q - q.floor < 1 / 2 then q.floor
  else if 1 / 2 < q - q.floor then q.floor + 1
  else if q.floor % 2 = 0 then q.floor else q.floor + 1

/-- utils._encode_field.  A string value is resolved through the signal's
choices (Python returns None when the string is not found, which makes the
later bitstruct pack raise; choices = None raises AttributeError).  With
scaling, a non-float signal computes (value - offset) / scale in exact
decimal arithmetic and rounds with to_integral (half to even); Decimal
division by a zero scale raises.  Without scaling the value is used as is
(a non-integral raw value would make the integer bit packing fail).
Float signals are not modelled. -/
def _encode_field (field : Sig) (data : Dict PyVal) (scaling : Bool) : Except PyErr ℤ :=
  match dictGet data field.name with
  | none => Except.error (PyErr.keyError field.name)
  | some (PyVal.str s) =>
      match field.choices with
      | none => Except.error (PyErr.attributeError "choices")
      | some cs =>
          match cs.find? (fun p => p.2 == s) with
          | some p => Except.ok p.1
          | none => Except.error (PyErr.typeError ("cannot pack None for " ++ field.name))
  | some (PyVal.num v) =>
      if scaling then
        if field.is_float then Except.error PyErr.floatNotModelled
        else if field.scale = 0 then Except.error (PyErr.error "decimal division by zero")
        else Except.ok (roundHalfEven ((v - field.offset) / field.scale))
      else if v.den = 1 then Except.ok v.num
      else Except.error (PyErr.typeError ("non-integral raw value for " ++ field.name))

/-- utils._decode_field: with decode_choices an integer present in the
choices dict becomes its display string (KeyError / TypeError fall
through); otherwise the raw value is scaled when requested. -/
def _decode_field (field : Sig) (value : ℤ) (decode_choices scaling : Bool) : PyVal :=
  match (if decode_choices then
           field.choices.bind (fun cs => (cs.find? (fun p => p.1 == value)).map Prod.snd)
         else none) with
  | some s => PyVal.str s
  | none => if scaling then PyVal.num (field.scale * value + field.offset)
            else PyVal.num (value : ℚ)

/-- The bit-packing loop of a compiled bitstruct format
(CompiledFormatDict.pack): walk the items MSB first, shifting the
accumulator left; an unsigned field requires 0 <= v < 2^len, a signed
field requires -2^(len-1) <= v < 2^(len-1) and is stored two's
complement; a missing name raises KeyError. -/
def packGo (unpacked : Dict ℤ) : List PackItem → Nat → Except PyErr Nat
  | [], acc => Except.ok acc
  | .pad n :: rest, acc => packGo unpacked rest (acc * 2 ^ n)
  | .fld s :: rest, acc =>
      match dictGet unpacked s.name with
      | none => Except.error (PyErr.keyError s.name)
      | some v =>
          if s.is_float then Except.error PyErr.floatNotModelled
          else if s.is_signed then
            if -(2 ^ (s.length - 1) : ℤ) ≤ v ∧ v < 2 ^ (s.length - 1) then
              packGo unpacked rest (acc * 2 ^ s.length + (v % (2 ^ s.length : ℤ)).toNat)
            else Except.error (PyErr.bitstructError s.name)
          else
            if 0 ≤ v ∧ v < (2 ^ s.length : ℤ) then
              packGo unpacked rest (acc * 2 ^ s.length + v.toNat)
            else Except.error (PyErr.bitstructError s.name)

/-- A packed format as the big-endian integer value of its byte string
(bitstruct zero-pads the final byte on the right). -/
def packBytesValue (items : List PackItem) (unpacked : Dict ℤ) : Except PyErr Nat := do
  let v ← packGo unpacked items 0
  pure (v * 2 ^ packPadBits items)

/-- utils.encode_data: no fields encode to 0; otherwise build the raw
dict, pack the big-endian program, pack the little-endian program and
reverse its bytes, and or the two integers together. -/
def encode_data (data : Dict PyVal) (fields : List Sig) (formats : Formats)
    (scaling : Bool) : Except PyErr Nat :=
  if fields.isEmpty then Except.ok 0
  else do
    let unpacked ← fields.foldlM
      (fun (acc : Dict ℤ) f => do
        let v ← _encode_field f data scaling
        pure (dictSet acc f.name v)) []
    let big ← packBytesValue formats.big_endian unpacked
    let little ← packBytesValue formats.little_endian unpacked
    pure (big ||| reverseBytes (packBytesLen formats.little_endian) little)

/-- Two's complement read-back of a len-bit field (bitstruct s<len>
unpack). -/
def toSignedInt (w len : Nat) : ℤ :=
  if 2 ^ (len - 1) ≤ w then (w : ℤ) - 2 ^ len else (w : ℤ)

/-- The bit-unpacking loop of a compiled bitstruct format: walk the items
keeping the MSB-first cursor, extracting each field's bits from the
buffer (given as integer value buf of bufBits bits). -/
def unpackGo (buf bufBits : Nat) : List PackItem → Nat → Dict ℤ → Except PyErr (Dict ℤ)
  | [], _, acc => Except.ok acc
  | .pad n :: rest, pos, acc => unpackGo buf bufBits rest (pos + n) acc
  | .fld s :: rest, pos, acc =>
      if s.is_float then Except.error PyErr.floatNotModelled
      else
        let w := (buf >>> (bufBits - (pos + s.length))) % 2 ^ s.length
        let v : ℤ := if s.is_signed then toSignedInt w s.length else (w : ℤ)
        unpackGo buf bufBits rest (pos + s.length) (dictSet acc s.name v)

/-- A compiled bitstruct unpack: fails when the buffer is shorter than
the format. -/
def unpackFields (items : List PackItem) (buf bufBits : Nat) : Except PyErr (Dict ℤ) :=
  if itemsTotal items ≤ bufBits then unpackGo buf bufBits items 0 []
  else Except.error (PyErr.bitstructError "short data")

/-- Big-endian integer value of a byte list. -/
def bytesToNat (bs : List Nat) : Nat :=
  bs.foldl (fun acc b => acc * 256 + b % 256) 0

/-- utils.decode_data: unpack the big-endian program from the buffer and
the little-endian program from the reversed buffer, merge, and decode
each field. -/
def decode_data (data : List Nat) (fields : List Sig) (formats : Formats)
    (decode_choices scaling : Bool) : Except PyErr (Dict PyVal) := do
  let u1 ← unpackFields formats.big_endian (bytesToNat data) (8 * data.length)
  let u2 ← unpackFields formats.little_endian (bytesToNat data.reverse) (8 * data.length)
  let unpacked := dictUpdate u1 u2
  fields.foldlM
    (fun (acc : Dict PyVal) f =>
      match dictGet unpacked f.name with
      | none => Except.error (PyErr.keyError f.name)
      | some v => pure (dictSet acc f.name (_decode_field f v decode_choices scaling))) []

/-- A codec tree node (the dict literal built by Message._create_codec):
the signals of the node, their packing formats against the full message
length, and for each multiplexer signal of the node a table from selector
value to child node. -/
inductive Codec
  | node (signals : List Sig) (formats : Formats)
      (multiplexers : List (String × List (ℤ × Codec)))

/-- Signals of a codec node. -/
def Codec.signals : Codec → List Sig
  | .node s _ _ => s

/-- Formats of a codec node. -/
def Codec.formats : Codec → Formats
  | .node _ f _ => f

/-- Multiplexer tables of a codec node. -/
def Codec.multiplexers : Codec → List (String × List (ℤ × Codec))
  | .node _ _ m => m

/-- Insert a selector id into an ascending duplicate-free list. -/
def insertIdSorted (x : ℤ) : List ℤ → List ℤ
  | [] => [x]
  | y :: ys =>
      if x < y then x :: y :: ys
      else if x = y then y :: ys
      else y :: insertIdSorted x ys

/-- Ascending duplicate-free image of a list of selector ids (the Python
children_ids set; set iteration order is unspecified in CPython, so the
model canonicalises it to ascending order — Message._check_mux sorts the
ids explicitly and every other consumer looks ids up by value). -/
def sortedIds (l : List ℤ) : List ℤ := l.foldr insertIdSorted []

/-- The children_ids set of Message._create_codec: union of the
multiplexer_ids of every signal depending on this multiplexer, plus the
keys of the multiplexer's own choices when that dict is truthy. -/
def childrenIds (allSignals : List Sig) (signal : Sig) : List ℤ :=
  let fromSignals :=
    (allSignals.filter (fun s => s.multiplexer_signal == some signal.name)).foldl
      (fun acc s => acc ++ s.multiplexer_ids) []
  sortedIds (match signal.choices with
    | some cs => if cs.isEmpty then fromSignals else fromSignals ++ cs.map Prod.fst
    | none => fromSignals)

/-- Message._create_codec.  The Python recursion is unbounded (it would
loop on a cyclic multiplexer-signal graph, where CPython raises
RecursionError); the model makes the recursion depth explicit with a fuel
argument and returns none when it is exhausted.  A multiplexer entry is
created only when its children_ids set is non-empty, exactly as in the
source. -/
def createCodecGo (allSignals : List Sig) (msgLength : Nat) :
    Nat → Option String → Option ℤ → Option Codec
  | 0, _, _ => none
  | fuel + 1, parent_signal, multiplexer_id =>
      let selected := allSignals.filter (fun s =>
        s.multiplexer_signal == parent_signal &&
        (match multiplexer_id with
         | none => true
         | some v => s.multiplexer_ids.contains v))
      let muxes := selected.foldr
        (fun s acc =>
          match acc with
          | none => none
          | some ms =>
              if s.is_multiplexer then
                let ids := childrenIds allSignals s
                if ids.isEmpty then some ms
                else
                  match ids.foldr
                    (fun i acc2 =>
                      match acc2,
                        createCodecGo allSignals msgLength fuel (some s.name) (some i) with
                      | some cs, some c => some ((i, c) :: cs)
                      | _, _ => none) (some []) with
                  | some cs => some ((s.name, cs) :: ms)
                  | none => none
              else some ms)
        (some [])
      match muxes with
      | none => none
      | some ms =>
          some (Codec.node selected (create_encode_decode_formats selected msgLength) ms)
termination_by structural fuel _ _ => fuel

/-- A node of the signal tree built by Message._create_signal_tree:
either a plain signal name or a multiplexer name with, per selector
value, the subtree of dependent signals. -/
inductive SigTree
  | leaf (name : String)
  | mux (name : String) (children : List (ℤ × List SigTree))

/-- Message._create_signal_tree, with the same explicit fuel as the codec
builder. -/
def createSignalTree : Nat → Codec → Option (List SigTree)
  | 0, _ => none
  | fuel + 1, .node signals _ muxes =>
      signals.foldr
        (fun s acc =>
          match acc with
          | none => none
          | some ts =>
              match muxes.find? (fun e => e.1 == s.name) with
              | some e =>
                  match e.2.foldr
                    (fun (p : ℤ × Codec) acc2 =>
                      match acc2, createSignalTree fuel p.2 with
                      | some l, some t => some ((p.1, t) :: l)
                      | _, _ => none) (some []) with
                  | some cs => some (SigTree.mux s.name cs :: ts)
                  | none => none
              | none => some (SigTree.leaf s.name :: ts))
        (some [])
termination_by structural fuel _ => fuel

/-- Message.get_signal_by_name: first signal with the name, else
KeyError. -/
def get_signal_by_name (signals : List Sig) (name : String) : Except PyErr Sig :=
  match signals.find? (fun s => s.name == name) with
  | some s => Except.ok s
  | none => Except.error (PyErr.keyError name)

/-- Signal.choice_string_to_number: the first raw value whose display
string matches, or Python None (Option.none) when there is no match. -/
def choice_string_to_number (choices : List (ℤ × String)) (string : String) : Option ℤ :=
  (choices.find? (fun p => p.2 == string)).map Prod.fst

/-- Message._get_mux_number: the selector value from the data dict; a
string value is resolved through the selector signal's choices (a failed
resolution yields Python None, which then misses every integer key of the
child table); a numeric value matches an integer key exactly when it is
integral. -/
def _get_mux_number (msgSignals : List Sig) (decoded : Dict PyVal)
    (signal_name : String) : Except PyErr (Option ℤ) :=
  match dictGet decoded signal_name with
  | none => Except.error (PyErr.keyError signal_name)
  | some (PyVal.num q) =>
      Except.ok (if q.den = 1 then some q.num else none)
  | some (PyVal.str s) => do
      let sig ← get_signal_by_name msgSignals signal_name
      match sig.choices with
      | none => Except.error (PyErr.attributeError "choices")
      | some cs => Except.ok (choice_string_to_number cs s)

/-- The insertion loop of Message._check_signals: a signal absent from
the data dict gets gen_sig_start_value + offset when that attribute is
defined, otherwise EncodeError. -/
def _check_signals_insert : List Sig → Dict PyVal → Except PyErr (Dict PyVal)
  | [], data => Except.ok data
  | s :: rest, data =>
      match dictGet data s.name with
      | some _ => _check_signals_insert rest data
      | none =>
          match s.gen_sig_start_value with
          | some g => _check_signals_insert rest (dictSet data s.name (PyVal.num (g + s.offset)))
          | none =>
              Except.error (PyErr.encodeError
                ("Expected signal value for " ++ s.name ++ " in data"))

/-- Message._check_signals_ranges_scaling: numeric values must respect
the declared minimum and maximum; strings are skipped (choices are
checked later). -/
def _check_signals_ranges_scaling : List Sig → Dict PyVal → Except PyErr Unit
  | [], _ => Except.ok ()
  | s :: rest, data =>
      match dictGet data s.name with
      | none => Except.error (PyErr.keyError s.name)
      | some (PyVal.str _) => _check_signals_ranges_scaling rest data
      | some (PyVal.num v) =>
          match s.minimum with
          | some mn =>
              if v < mn then
                Except.error (PyErr.encodeError
                  ("Expected signal " ++ s.name ++ " value greater than or equal to minimum"))
              else
                match s.maximum with
                | some mx =>
                    if mx < v then
                      Except.error (PyErr.encodeError
                        ("Expected signal " ++ s.name ++ " value less than or equal to maximum"))
                    else _check_signals_ranges_scaling rest data
                | none => _check_signals_ranges_scaling rest data
          | none =>
              match s.maximum with
              | some mx =>
                  if mx < v then
                    Except.error (PyErr.encodeError
                      ("Expected signal " ++ s.name ++ " value less than or equal to maximum"))
                  else _check_signals_ranges_scaling rest data
              | none => _check_signals_ranges_scaling rest data

/-- Message._check_signals: insert defaults for missing signals (mutating
the caller's dict, modelled by returning the updated dict), then check
ranges when scaling. -/
def _check_signals (signals : List Sig) (data : Dict PyVal) (scaling : Bool) :
    Except PyErr (Dict PyVal) := do
  let data ← _check_signals_insert signals data
  if scaling then do
    _check_signals_ranges_scaling signals data
    pure data
  else pure data

/-- One multiplexer iteration of Message._encode: read the selector from
the current dict, look the child node up by selector value (a missed
lookup raises EncodeError), encode the child and or its bits in. -/
def encodeMuxStep (msgSignals : List Sig)
    (encChild : Codec → Dict PyVal → Except PyErr (Dict PyVal × Nat × Nat))
    (st : Dict PyVal × Nat × Nat) (entry : String × List (ℤ × Codec)) :
    Except PyErr (Dict PyVal × Nat × Nat) := do
  let mux ← _get_mux_number msgSignals st.1 entry.1
  match entry.2.find? (fun p =>
      match mux with
      | some m => p.1 == m
      | none => false) with
  | none =>
      Except.error (PyErr.encodeError ("expected multiplexer id for " ++ entry.1))
  | some pc => do
      let sub ← encChild pc.2 st.1
      pure (sub.1, st.2.1 ||| sub.2.1, st.2.2 &&& sub.2.2)

/-- Message._encode, recursing over the codec tree with explicit fuel.
The dict is threaded because _check_signals mutates it in place; each
multiplexer reads its selector from the dict, descends into the selected
child node, ors the child's bits in and ands its padding mask. -/
def encodeNode (msgSignals : List Sig) :
    Nat → Codec → Dict PyVal → Bool → Bool → Except PyErr (Dict PyVal × Nat × Nat)
  | 0, _, _, _, _ => Except.error PyErr.recursionLimit
  | fuel + 1, .node signals formats muxes, data, scaling, strict =>
      (if strict then _check_signals signals data scaling else Except.ok data) >>= fun data1 =>
      encode_data data1 signals formats scaling >>= fun encoded =>
      muxes.foldlM
        (encodeMuxStep msgSignals (fun c d => encodeNode msgSignals fuel c d scaling strict))
        (data1, encoded, formats.padding_mask)
termination_by structural fuel _ _ _ _ => fuel

/-- Message._decode, recursing over the codec tree with explicit fuel. -/
def decodeNode (msgSignals : List Sig) :
    Nat → Codec → List Nat → Bool → Bool → Except PyErr (Dict PyVal)
  | 0, _, _, _, _ => Except.error PyErr.recursionLimit
  | fuel + 1, .node signals formats muxes, data, decode_choices, scaling => do
      let decoded ← decode_data data signals formats decode_choices scaling
      muxes.foldlM
        (fun (dec : Dict PyVal) entry => do
          let mux ← _get_mux_number msgSignals dec entry.1
          match entry.2.find? (fun p =>
              match mux with
              | some m => p.1 == m
              | none => false) with
          | none =>
              Except.error (PyErr.decodeError
                ("expected multiplexer id for " ++ entry.1))
          | some pc => do
              let sub ← decodeNode msgSignals fuel pc.2 data decode_choices scaling
              pure (dictUpdate dec sub))
        decoded
termination_by structural fuel _ _ _ _ => fuel

/-- The chunk loop of the little-endian branch of Message._check_signal:
walk the bit list in chunks of 8, prepending each chunk (reversing the
byte order of the bit claims).  The fuel is the list length, which bounds
the number of chunks. -/
def chunkRevGo : Nat → List (Option String) → List (Option String) → List (Option String)
  | 0, _, acc => acc
  | fuel + 1, l, acc =>
      if l.isEmpty then acc else chunkRevGo fuel (l.drop 8) (l.take 8 ++ acc)

/-- Reverse a bit-claim list byte-chunk-wise (Message._check_signal). -/
def chunkReverse (l : List (Option String)) : List (Option String) :=
  chunkRevGo l.length l []

/-- The marking loop of Message._check_signal: walk the signal's claimed
bits over the message bits, marking free positions with the signal name;
at the first position claimed both by this signal and by an already
recorded one, stop and report the recorded owner (positions after the
conflict stay untouched, positions before it keep the new marks, exactly
as the in-place Python loop leaves them). -/
def markScan (sigName : String) :
    List (Option String) → List (Option String) → List (Option String) × Option String
  | [], mbs => (mbs, none)
  | _ :: _, [] => ([], none)
  | none :: sbs, mb :: mbs =>
      let r := markScan sigName sbs mbs
      (mb :: r.1, r.2)
  | some _ :: sbs, mb :: mbs =>
      match mb with
      | some other => (mb :: mbs, some other)
      | none =>
          let r := markScan sigName sbs mbs
          (some sigName :: r.1, r.2)

/-- Message._check_signal.  Builds the signal's claimed-bit list (big
endian: start_bit leading gap; little endian: trailing gap below start,
left-padded to the message width and byte-chunk reversed), reports
"does not fit" when it is longer than the message, otherwise marks the
bits and on an overlap reports it and retracts this signal's marks.  The
source only prints these reports (the raise is commented out), so the
model returns them as a warning list next to the updated bits. -/
def _check_signal (msgName : String) (message_bits : List (Option String)) (signal : Sig) :
    List (Option String) × List String :=
  let base := List.replicate signal.length (some signal.name)
  let signal_bits :=
    if signal.byte_order = ByteOrder.big_endian then
      List.replicate (start_bit signal) (none : Option String) ++ base
    else
      let sb2 := base ++ List.replicate signal.start (none : Option String)
      let rev :=
        if sb2.length < message_bits.length then
          List.replicate (message_bits.length - sb2.length) (none : Option String) ++ sb2
        else sb2
      chunkReverse rev
  if message_bits.length < signal_bits.length then
    (message_bits,
      ["The signal " ++ signal.name ++ " does not fit in message " ++ msgName ++ "."])
  else
    let r := markScan signal.name signal_bits message_bits
    match r.2 with
    | some other =>
        (r.1.map (fun b => if b == some signal.name then none else b),
          ["The signals " ++ signal.name ++ " and " ++ other ++ " are overlapping in message "
            ++ msgName ++ "."])
    | none => (r.1, [])

/-- Merge the bits a multiplexer branch marked into the running message
bits (the final loop of Message._check_mux). -/
def mergeBits (mb cb : List (Option String)) : List (Option String) :=
  mb.zipWith (fun m c => match c with | some x => some x | none => m) cb

/-- Ascending insertion of a multiplexer branch by selector id (the
sorted(children) of Message._check_mux). -/
def insertChildSorted (x : ℤ × List SigTree) :
    List (ℤ × List SigTree) → List (ℤ × List SigTree)
  | [] => [x]
  | y :: ys => if x.1 ≤ y.1 then x :: y :: ys else y :: insertChildSorted x ys

/-- Sort multiplexer branches by selector id. -/
def sortChildren (l : List (ℤ × List SigTree)) : List (ℤ × List SigTree) :=
  l.foldr insertChildSorted []

/-- Message._check_signal_tree together with Message._check_mux, with the
same explicit recursion fuel as the codec builder.  A multiplexer node
checks the selector signal itself, then checks every branch against a
copy of the current bits and merges each branch's marks back; all
warnings are accumulated. -/
def checkTreeGo (msgName : String) (allSignals : List Sig) :
    Nat → List SigTree → List (Option String) → List String →
    Except PyErr (List (Option String) × List String)
  | 0, _, _, _ => Except.error PyErr.recursionLimit
  | fuel + 1, trees, bits, warns =>
      trees.foldlM
        (fun (st : List (Option String) × List String) t =>
          match t with
          | .leaf name => do
              let s ← get_signal_by_name allSignals name
              let r := _check_signal msgName st.1 s
              pure (r.1, st.2 ++ r.2)
          | .mux name children => do
              let s ← get_signal_by_name allSignals name
              let r := _check_signal msgName st.1 s
              (sortChildren children).foldlM
                (fun (acc : List (Option String) × List String) p => do
                  let rc ← checkTreeGo msgName allSignals fuel p.2 r.1 []
                  pure (mergeBits acc.1 rc.1, acc.2 ++ rc.2))
                (r.1, st.2 ++ r.2))
        (bits, warns)
termination_by structural fuel _ _ _ => fuel

/-- Python's stable list.sort(key=start_bit) in Message.refresh, modelled
by insertion sort on the key order (insertion sort is stable, like
Timsort). -/
def sortSignals (signals : List Sig) : List Sig :=
  signals.insertionSort (fun a b => start_bit a ≤ start_bit b)

/-- A message as constructed (message.py, Message.__init__ arguments the
codec consumes).  The frame id is kept as its raw integer; the lazy
frame-id variant objects are modelled separately below. -/
structure Msg where
  frame_id : Nat
  name : String
  length : Nat
  signals : List Sig
  strict : Bool := true

/-- The state Message.refresh leaves behind: sorted signals, the codec
tree, the signal tree and the warnings printed by the strict check. -/
structure BuiltMsg where
  frame_id : Nat
  name : String
  length : Nat
  signals : List Sig
  codecs : Codec
  signal_tree : List SigTree
  warnings : List String

/-- Recursion fuel for a message's codec walks: one level per signal can
never be exceeded by an acyclic multiplexer hierarchy. -/
def codecFuel (m : Msg) : Nat := m.signals.length + 1

/-- Message.refresh: sort the signals by start_bit, reject zero-length
signals, rebuild the codec and signal trees, and when strict run the
overlap/fit check, which only collects printed warnings and never
fails. -/
def Msg.refresh (m : Msg) (strictArg : Option Bool) : Except PyErr BuiltMsg := do
  let sorted := sortSignals m.signals
  match sorted.find? (fun s => s.length == 0) with
  | some s =>
      Except.error (PyErr.error ("The signal " ++ s.name ++
        " length 0 is not greater than 0 in message " ++ m.name))
  | none => do
      let codecs ←
        match createCodecGo sorted m.length (codecFuel m) none none with
        | some c => Except.ok c
        | none => Except.error PyErr.recursionLimit
      let tree ←
        match createSignalTree (codecFuel m) codecs with
        | some t => Except.ok t
        | none => Except.error PyErr.recursionLimit
      let strict := strictArg.getD m.strict
      let warnings ←
        if strict then do
          let r ← checkTreeGo m.name sorted (codecFuel m) tree
            (List.replicate (8 * m.length) none) []
          pure r.2
        else pure []
      pure { frame_id := m.frame_id, name := m.name, length := m.length,
             signals := sorted, codecs := codecs, signal_tree := tree,
             warnings := warnings }

/-- Big-endian byte serialisation of the low l bytes of a natural
number. -/
def natToBytes : Nat → Nat → List Nat
  | 0, _ => []
  | l + 1, n => natToBytes l (n / 256) ++ [n % 256]

/-- The TXData bytearray returned by Message.encode, with the frame id
as its integer value. -/
structure TXData where
  bytes : List Nat
  frame_id : Nat
deriving DecidableEq

/-- Message.encode: run the recursive encoder, or in the padding mask on
request, and serialise to exactly length bytes.  The source serialises
with a 0x80 sentinel prepended to the hex string and truncates to length
bytes; for encoded values below 2 ^ (8 * length + 3), which covers every
in-range frame, that equals the big-endian bytes of the value modulo
2 ^ (8 * length) as modelled here. -/
def BuiltMsg.encode (m : BuiltMsg) (data : Dict PyVal) (scaling padding strict : Bool) :
    Except PyErr TXData := do
  let r ← encodeNode m.signals (m.signals.length + 1) m.codecs data scaling strict
  let encoded := if padding then r.2.1 ||| r.2.2 else r.2.1
  pure { bytes := natToBytes m.length (encoded % 2 ^ (8 * m.length)), frame_id := m.frame_id }

/-- An element held by the RXData list: Python strings (what list(dict)
actually yields, namely the dict keys) or signal-like objects with a name
and a value (what RXData's lookup methods expect). -/
inductive RXElem
  | pystr (s : String)
  | sigObj (name : String) (value : PyVal)
deriving DecidableEq

/-- The RXData list returned by Message.decode. -/
structure RXData where
  items : List RXElem
  frame_id : Nat
deriving DecidableEq

/-- RXData.__getitem__ with a string key: scan the list comparing each
element's name attribute; a plain string element has no name attribute,
so the scan raises AttributeError there. -/
def rxGetByNameGo (k : String) : List RXElem → Except PyErr RXElem
  | [] => Except.error (PyErr.keyError k)
  | RXElem.sigObj n v :: rest =>
      if n == k then Except.ok (RXElem.sigObj n v) else rxGetByNameGo k rest
  | RXElem.pystr _ :: _ =>
      Except.error (PyErr.attributeError "str object has no attribute name")

/-- Lookup by signal name on an RXData. -/
def RXData.getByName (r : RXData) (k : String) : Except PyErr RXElem :=
  rxGetByNameGo k r.items

/-- RXData.__setitem__ with a string key: replace the element whose name
attribute matches, else append; scanning a plain string element raises
AttributeError. -/
def rxSetByNameGo (k : String) (v : RXElem) : List RXElem → Except PyErr (List RXElem)
  | [] => Except.ok [v]
  | RXElem.sigObj n w :: rest =>
      if n == k then Except.ok (v :: rest)
      else do
        let r ← rxSetByNameGo k v rest
        pure (RXElem.sigObj n w :: r)
  | RXElem.pystr _ :: _ =>
      Except.error (PyErr.attributeError "str object has no attribute name")

/-- The name-to-value dictionary computed by Message._decode on the
truncated buffer (the value Message.decode hands to the RXData
constructor). -/
def BuiltMsg.decodeDict (m : BuiltMsg) (data : List Nat) (decode_choices scaling : Bool) :
    Except PyErr (Dict PyVal) :=
  decodeNode m.signals (m.signals.length + 1) m.codecs (data.take m.length)
    decode_choices scaling

/-- Message.decode: truncate the buffer to the message length, decode,
and wrap in RXData.  RXData subclasses list, and list(dict) yields the
dict KEYS, so the returned collection holds the decoded signal names as
plain strings and the decoded values are dropped. -/
def BuiltMsg.decode (m : BuiltMsg) (data : List Nat) (decode_choices scaling : Bool) :
    Except PyErr RXData := do
  let d ← m.decodeDict data decode_choices scaling
  pure { items := d.map (fun p => RXElem.pystr p.1), frame_id := m.frame_id }

/-- frame_id/j1939.py, class J1939FrameId (field record). -/
structure J1939FrameId where
  priority : Nat
  reserved : Nat
  data_page : Nat
  pdu_format : Nat
  pdu_specific : Nat
  source_address : Nat
deriving DecidableEq

/-- J1939FrameId.from_frame_id: reject ids outside 0..0x1fffffff, then
split the 29 bits as priority(3) reserved(1) data_page(1) pdu_format(8)
pdu_specific(8) source_address(8), MSB first. -/
def J1939FrameId.from_frame_id (frame_id : Nat) : Except PyErr J1939FrameId :=
  if frame_id < 2 ^ 29 then
    Except.ok
      { priority := frame_id >>> 26
        reserved := (frame_id >>> 25) % 2
        data_page := (frame_id >>> 24) % 2
        pdu_format := (frame_id >>> 16) % 256
        pdu_specific := (frame_id >>> 8) % 256
        source_address := frame_id % 256 }
  else Except.error (PyErr.error "Expected a frame id 0..0x1fffffff")

/-- The pgn property of J1939FrameId: raises when pdu_format < 240 and
pdu_specific is non-zero; otherwise packs reserved(1) data_page(1)
pdu_format(8) pdu_specific(8) into 18 bits (a bitstruct range failure on
a field is reported as an Error). -/
def J1939FrameId.pgn (f : J1939FrameId) : Except PyErr Nat :=
  if f.pdu_format < 240 ∧ f.pdu_specific ≠ 0 then
    Except.error (PyErr.error "Expected PDU specific 0 when PDU format is 0..239")
  else if f.reserved ≤ 1 ∧ f.data_page ≤ 1 ∧ f.pdu_format ≤ 255 ∧ f.pdu_specific ≤ 255 then
    Except.ok (f.reserved <<< 17 ||| f.data_page <<< 16 ||| f.pdu_format <<< 8 ||| f.pdu_specific)
  else Except.error (PyErr.error "J1939 field out of range")

/-- frame_id/gm_parameter_id.py, class GMParameterIdExtended. -/
structure GMParameterIdExtended where
  priority : Nat
  parameter_id : Nat
  source_id : Nat
deriving DecidableEq

/-- GMParameterIdExtended.from_frame_id. -/
def GMParameterIdExtended.from_frame_id (frame_id : Nat) : GMParameterIdExtended :=
  { priority := (frame_id >>> 26) &&& 0x7
    parameter_id := (frame_id >>> 13) &&& 0x1FFF
    source_id := frame_id &&& 0x1FFF }

/-- The frame_id property of GMParameterIdExtended:
priority(3) | parameter_id(13) | source_id(13). -/
def GMParameterIdExtended.frame_id (f : GMParameterIdExtended) : Nat :=
  ((f.priority &&& 0x7) <<< 13 ||| (f.parameter_id &&& 0x1FFF)) <<< 13 ||| (f.source_id &&& 0x1FFF)

/-- The state SG_MUL_VAL.__init__ stores when it completes. -/
structure SGMulVal where
  multiplexer_signal : Option String
  multiplexer_ids : List ℤ
deriving DecidableEq

/-- SG_MUL_VAL.__init__ (sg_mul_val.py), called with the freshly made
Signal as parent.  Its first statement evaluates
self._parent.message.signals, which is None.signals when the signal was
constructed with parent None (AttributeError); the comprehension filter
then reads self._multiplexer_signal, an attribute that has not been
assigned yet, so any non-empty signal list raises AttributeError as
well.  Only an empty signal list reaches the assignment. -/
def sgMulValInit (parentMessageSignals : Option (List Sig))
    (multiplexer_signal : Option String) (multiplexer_ids : List ℤ) :
    Except PyErr SGMulVal :=
  match parentMessageSignals with
  | none => Except.error (PyErr.attributeError "NoneType object has no attribute signals")
  | some signals =>
      if signals.isEmpty then
        Except.ok { multiplexer_signal := multiplexer_signal, multiplexer_ids := multiplexer_ids }
      else
        Except.error
          (PyErr.attributeError "SG_MUL_VAL object has no attribute _multiplexer_signal")

/-- Signal.__init__ (signal.py): the plain attribute assignments always
succeed; the final statement constructs the SG_MUL_VAL, whose failure
propagates out of the constructor. -/
def Signal_init (parent : Option Msg) (name : String) (start length : Nat)
    (byte_order : ByteOrder) (is_signed : Bool) (scale offset : ℚ)
    (multiplexer_ids : List ℤ) (multiplexer_signal : Option String) (is_float : Bool) :
    Except PyErr Sig := do
  let mv ← sgMulValInit (parent.map Msg.signals) multiplexer_signal multiplexer_ids
  pure { name := name, start := start, length := length, byte_order := byte_order,
         is_signed := is_signed, is_float := is_float, scale := scale, offset := offset,
         multiplexer_signal := mv.multiplexer_signal, multiplexer_ids := mv.multiplexer_ids }

/-- Truncation of an exact rational toward zero: the semantics the spec
prescribes for integer scaling ("truncates the exact quotient toward
zero").  Int.div rounds toward zero. -/
def truncTowardZero (q : ℚ) : ℤ := Int.tdiv q.num q.den

/-- A one-signal message used to exercise the decode result interface:
an unsigned little-endian byte signal. -/
def sigC2 : Sig := { name := "SigC2", start := 0, length := 8 }

/-- Message holding sigC2. -/
def msgC2 : Msg := { frame_id := 0x123, name := "MsgC2", length := 1, signals := [sigC2] }

/-- A 16-bit big-endian signal that cannot fit into a 1-byte frame. -/
def sigC3 : Sig := { name := "SpeedC3", start := 7, length := 16, byte_order := ByteOrder.big_endian }

/-- One-byte message carrying the overflowing sigC3, built strict. -/
def msgC3 : Msg := { frame_id := 0x100, name := "MsgC3", length := 1, signals := [sigC3] }

/-- First of two overlapping big-endian signals. -/
def sigC3a : Sig := { name := "AC3", start := 7, length := 8, byte_order := ByteOrder.big_endian }

/-- Second signal, overlapping sigC3a in bits 2..5 of byte 0. -/
def sigC3b : Sig := { name := "BC3", start := 5, length := 4, byte_order := ByteOrder.big_endian }

/-- One-byte message with two overlapping signals, built strict. -/
def msgC3o : Msg := { frame_id := 0x101, name := "MsgC3o", length := 1, signals := [sigC3a, sigC3b] }

/-- Plain byte signal with scale 1, offset 0 (integer scaling subject). -/
def sigC4 : Sig := { name := "SigC4", start := 0, length := 8 }

/-- Byte signal with a defined GenSigStartValue of 5. -/
def sigC5 : Sig := { name := "SigC5", start := 0, length := 8, gen_sig_start_value := some 5 }

/-- One-byte message holding sigC5. -/
def msgC5 : Msg := { frame_id := 0x10, name := "MsgC5", length := 1, signals := [sigC5] }

/-- Root codec node for msgC5 (what _create_codec builds for it). -/
def codecC5 : Codec := Codec.node [sigC5] (create_encode_decode_formats [sigC5] 1) []

/-- Scenario S1: big-endian unsigned length_tx at start 7, 8 bits,
initial value 2. -/
def sigLengthTx : Sig :=
  { name := "length_tx", start := 7, length := 8, byte_order := ByteOrder.big_endian,
    gen_sig_start_value := some 2 }

/-- Scenario S1: big-endian unsigned mode at start 15, 4 bits, initial
value 4. -/
def sigMode : Sig :=
  { name := "mode", start := 15, length := 4, byte_order := ByteOrder.big_endian,
    gen_sig_start_value := some 4 }

/-- Scenario S1: big-endian unsigned pid at start 23, 8 bits, initial
value 0. -/
def sigPid : Sig :=
  { name := "pid", start := 23, length := 8, byte_order := ByteOrder.big_endian,
    gen_sig_start_value := some 0 }

/-- Scenario S1: the OBDII request message TX, 8 bytes, frame id 0x7DF. -/
def msgS1 : Msg :=
  { frame_id := 0x7DF, name := "TX", length := 8, signals := [sigLengthTx, sigMode, sigPid] }

/-- Scenario S1 encode input. -/
def dataS1 : Dict PyVal :=
  [("length_tx", PyVal.num 2), ("mode", PyVal.num 1), ("pid", PyVal.num 13)]

/-- Signal whose scale 3 does not divide the input value below: the
round-trip counterexample subject. -/
def sigC1 : Sig := { name := "SigC1", start := 0, length := 8, scale := 3 }

/-- One-byte message holding sigC1. -/
def msgC1 : Msg := { frame_id := 0x20, name := "MsgC1", length := 1, signals := [sigC1] }

/-- Empty message used as a Signal constructor parent. -/
def msgW10 : Msg := { frame_id := 1, name := "MsgW10", length := 1, signals := [] }

/-- The permutation of LSB-first bit indices induced by reversing an
L-byte buffer: bit i of the reversed buffer is bit revIdx L i of the
original. -/
def revIdx (L i : Nat) : Nat := 8 * (L - 1 - i / 8) + i % 8

/-- The set of LSB-first bit positions of the final L-byte frame that a
signal occupies: a big-endian signal covers the interval determined by
its start_bit in the MSB-first stream; a little-endian signal covers the
byte-reversal image of its [start, start + length) interval. -/
def claimsBit (L : Nat) (s : Sig) (i : Nat) : Prop :=
  i < 8 * L ∧
  ((s.byte_order = ByteOrder.big_endian ∧
      8 * L - start_bit s - s.length ≤ i ∧ i < 8 * L - start_bit s) ∨
   (s.byte_order = ByteOrder.little_endian ∧
      s.start ≤ revIdx L i ∧ revIdx L i < s.start + s.length))

/-- Decidability of the footprint predicate (needed to check concrete
layouts by evaluation). -/
instance (L : Nat) (s : Sig) (i : Nat) : Decidable (claimsBit L s i) := by
  unfold claimsBit
  infer_instance

/-- The bit image of a raw field value in a len-bit field: its two's
complement residue. -/
def rawBits (s : Sig) (v : ℤ) : Nat := (v % (2 ^ s.length : ℤ)).toNat

/-- Well-formedness of the big-endian layout of a signal list against a
running MSB-first cursor: every big-endian signal starts at or after the
cursor and moves it past its own end; the final cursor is within the
format. -/
def bigLayoutOK (N : Nat) : List Sig → Nat → Prop
  | [], c => c ≤ N
  | s :: rest, c =>
      if s.byte_order = ByteOrder.big_endian then
        c ≤ start_bit s ∧ bigLayoutOK N rest (start_bit s + s.length)
      else bigLayoutOK N rest c

/-- The value the big-endian program packs: each big-endian signal's bit
image at its position from the top of the N-bit word. -/
def bigSum (N : Nat) (raw : Sig → ℤ) : List Sig → Nat
  | [] => 0
  | s :: rest =>
      (if s.byte_order = ByteOrder.big_endian then
        rawBits s (raw s) * 2 ^ (N - start_bit s - s.length) else 0) + bigSum N raw rest

/-- Well-formedness of the little-endian layout of the REVERSED signal
list against a running end cursor: every little-endian signal ends at or
below the cursor and moves it down to its own start. -/
def littleLayoutOK : List Sig → Nat → Prop
  | [], _ => True
  | s :: rest, e =>
      if s.byte_order = ByteOrder.little_endian then
        s.start + s.length ≤ e ∧ littleLayoutOK rest s.start
      else littleLayoutOK rest e

/-- The value the little-endian program packs (before byte reversal):
each little-endian signal's bit image at its start position. -/
def littleSum (raw : Sig → ℤ) : List Sig → Nat
  | [] => 0
  | s :: rest =>
      (if s.byte_order = ByteOrder.little_endian then
        rawBits s (raw s) * 2 ^ s.start else 0) + littleSum raw rest

/-- The bitstruct range precondition of a field value: what the packing
of a u&lt;len&gt; or s&lt;len&gt; field requires. -/
def inRange (s : Sig) (v : ℤ) : Prop :=
  (s.is_signed = true ∧ -(2 ^ (s.length - 1) : ℤ) ≤ v ∧ v < 2 ^ (s.length - 1)) ∨
  (s.is_signed = false ∧ 0 ≤ v ∧ v < (2 ^ s.length : ℤ))

/-- Decidability of the range precondition. -/
instance (s : Sig) (v : ℤ) : Decidable (inRange s v) := by
  unfold inRange
  infer_instance

/-- Totality of the start_bit key order (for sortedness of the insertion
sort modelling Python's stable sort). -/
instance : IsTotal Sig (fun a b => start_bit a ≤ start_bit b) :=
  ⟨fun a b => Nat.le_total (start_bit a) (start_bit b)⟩

/-- Transitivity of the start_bit key order. -/
instance : IsTrans Sig (fun a b => start_bit a ≤ start_bit b) :=
  ⟨fun _ _ _ => Nat.le_trans⟩

/-- The value a compiled bitstruct unpack yields for one field: the
len-bit extract of the buffer at the given right-shift, read back signed
or unsigned. -/
def unpackedVal (buf : Nat) (s : Sig) (sh : Nat) : ℤ :=
  if s.is_signed = true then toSignedInt ((buf >>> sh) % 2 ^ s.length) s.length
  else (((buf >>> sh) % 2 ^ s.length : Nat) : ℤ)

/-- Round-trip witness signal: big-endian unsigned, byte 0, scale 2. -/
def sigRt1 : Sig :=
  { name := "Rt1", start := 7, length := 8, byte_order := ByteOrder.big_endian, scale := 2 }

/-- Round-trip witness signal: little-endian signed, bits 8..12, offset 1. -/
def sigRt2 : Sig :=
  { name := "Rt2", start := 8, length := 5, byte_order := ByteOrder.little_endian,
    is_signed := true, offset := 1 }

/-- Round-trip witness signal: little-endian unsigned, bits 13..15. -/
def sigRt3 : Sig :=
  { name := "Rt3", start := 13, length := 3, byte_order := ByteOrder.little_endian }

/-- Round-trip witness message: two bytes, three signals of mixed byte
order and signedness. -/
def msgRt : Msg :=
  { frame_id := 0x21, name := "MsgRt", length := 2, signals := [sigRt1, sigRt2, sigRt3] }

/-- Round-trip witness encode input dict. -/
def dataRt : Dict PyVal :=
  [("Rt1", PyVal.num 6), ("Rt2", PyVal.num (-3)), ("Rt3", PyVal.num 5)]

/-- Round-trip witness value assignment, as a function of the signal. -/
def valsRt : Sig → ℚ :=
  fun s => if s.name = "Rt2" then -3 else if s.name = "Rt3" then 5 else 6

/-- C7 counterexample: the claim asserts that the pgn of
from_frame_id(0x18EEFF00) equals 0x0EE00; on the code the pgn property of
that frame id does not return 0x0EE00 (it raises, because pdu_format 238
is below 240 while pdu_specific is 255). -/
theorem c7_counterexample :
    (J1939FrameId.from_frame_id 0x18EEFF00).bind J1939FrameId.pgn ≠ Except.ok 0xEE00 := by
  decide

/-- C7 as amended: from_frame_id(0x18EEFF00) yields the field tuple
(6, 0, 0, 238, 255, 0) exactly as claimed, but the pgn property of that
object raises an Error (pdu_format 238 < 240 with pdu_specific 255 ≠ 0)
instead of returning 0x0EE00. -/
theorem c7_s4_amended :
    J1939FrameId.from_frame_id 0x18EEFF00 =
      Except.ok { priority := 6, reserved := 0, data_page := 0, pdu_format := 238,
                  pdu_specific := 255, source_address := 0 } ∧
    (J1939FrameId.from_frame_id 0x18EEFF00).bind J1939FrameId.pgn =
      Except.error (PyErr.error "Expected PDU specific 0 when PDU format is 0..239") := by
  decide

/-- C9 counterexample: the claim asserts parameter_id 0x0E90 for
from_frame_id(0x0C1D2000); the code computes 0x00E9. -/
theorem c9_counterexample :
    (GMParameterIdExtended.from_frame_id 0x0C1D2000).parameter_id ≠ 0x0E90 := by
  decide

/-- C9 as amended: from_frame_id(0x0C1D2000) yields
(priority, parameter_id, source_id) = (3, 0x00E9, 0x0000), and the
frame_id property converts that object back to the original integer. -/
theorem c9_s5_amended :
    GMParameterIdExtended.from_frame_id 0x0C1D2000 =
      { priority := 3, parameter_id := 0xE9, source_id := 0 } ∧
    (GMParameterIdExtended.from_frame_id 0x0C1D2000).frame_id = 0x0C1D2000 := by
  decide

/-- C3: with strict = True, refresh of a message whose only signal
overflows the frame, and of a message with two overlapping signals,
completes successfully (no exception) and merely records the printed
warning — the raise in Message._check_signal is commented out, although
the class docstring promises an exception. -/
theorem c3_strict_refresh_only_warns :
    (msgC3.refresh none).map BuiltMsg.warnings =
      Except.ok ["The signal SpeedC3 does not fit in message MsgC3."] ∧
    (msgC3o.refresh none).map BuiltMsg.warnings =
      Except.ok ["The signals BC3 and AC3 are overlapping in message MsgC3o."] := by
  constructor
  · with_unfolding_all decide
  · with_unfolding_all decide

/-- C2: decoding one byte of the one-signal message yields an RXData that
holds the decoded signal NAME as a plain string (list(dict) yields the
dict keys); looking the signal name up, or assigning under it, hits the
missing name attribute of str and raises AttributeError instead of
returning / overwriting the decoded value 5. -/
theorem c2_decode_result_bug :
    (msgC2.refresh none).map (fun b =>
      (b.decode [5] true true).map (fun r =>
        (r.items, r.getByName "SigC2",
          rxSetByNameGo "SigC2" (RXElem.sigObj "SigC2" (PyVal.num 1)) r.items))) =
      Except.ok (Except.ok ([RXElem.pystr "SigC2"],
        Except.error (PyErr.attributeError "str object has no attribute name"),
        Except.error (PyErr.attributeError "str object has no attribute name"))) := by
  with_unfolding_all decide

/-- C8 counterexample: with mode at start 15 (the MSB of byte 1), the
claimed payload 02 01 0D 00 00 00 00 00 is not what the encoder
produces. -/
theorem c8_counterexample :
    (msgS1.refresh none).map (fun b => b.encode dataS1 true false true) ≠
      Except.ok (Except.ok { bytes := [0x02, 0x01, 0x0D, 0, 0, 0, 0, 0], frame_id := 0x7DF }) := by
  with_unfolding_all decide

/-- C8 as amended: the S1 message encodes
{length_tx: 2, mode: 1, pid: 0x0D} to 02 10 0D 00 00 00 00 00 with frame
id 0x7DF — mode occupies the HIGH nibble of byte 1, because a big-endian
signal's start bit 15 is that byte's most significant bit. -/
theorem c8_s1_amended :
    (msgS1.refresh none).map (fun b => b.encode dataS1 true false true) =
      Except.ok (Except.ok { bytes := [0x02, 0x10, 0x0D, 0, 0, 0, 0, 0], frame_id := 0x7DF }) := by
  with_unfolding_all decide

/-- C1 counterexample: for the message whose only signal has scale 3,
the dict {SigC1: 1} passes strict scaled encode (raw value
to_integral(1/3) = 0), but decoding the produced payload yields
{SigC1: 0}, not the original dict. -/
theorem c1_counterexample :
    (msgC1.refresh none).map (fun b =>
      (b.encode [("SigC1", PyVal.num 1)] true false true).map (fun tx =>
        b.decodeDict tx.bytes false true)) =
      Except.ok (Except.ok (Except.ok [("SigC1", PyVal.num 0)])) ∧
    PyVal.num 0 ≠ PyVal.num 1 := by
  constructor
  · with_unfolding_all decide
  · simp

/-- C5 counterexample: with strict = False, encoding an empty dict for a
message whose signal has a defined GenSigStartValue raises KeyError (the
fallback in _check_signals is skipped entirely), not EncodeError, and no
substitution happens. -/
theorem c5_counterexample :
    (msgC5.refresh none).map (fun b => b.encode [] true false false) =
      Except.ok (Except.error (PyErr.keyError "SigC5")) ∧
    ∀ msg, PyErr.keyError "SigC5" ≠ PyErr.encodeError msg := by
  constructor
  · with_unfolding_all decide
  · intro msg
    simp

/-- C4 counterexample: the quotient (1.5 - 0) / 1 encodes as raw 2
(decimal to_integral rounds half to even), while truncation toward zero
— what the claim asserts — would give 1. -/
theorem c4_counterexample :
    _encode_field sigC4 [("SigC4", PyVal.num (3 / 2))] true = Except.ok 2 ∧
    truncTowardZero ((3 / 2 - sigC4.offset) / sigC4.scale) = 1 := by
  constructor
  · with_unfolding_all decide
  · with_unfolding_all decide

/-- Helper: the pgn property succeeds with the packed 18-bit value
whenever the fields are in range and the PDU1/zero-specific guard does
not fire. -/
theorem pgn_ok_of_ranges (f : J1939FrameId) (hr : f.reserved ≤ 1) (hd : f.data_page ≤ 1)
    (hp : f.pdu_format ≤ 255) (hs : f.pdu_specific ≤ 255)
    (hcond : ¬(f.pdu_format < 240 ∧ f.pdu_specific ≠ 0)) :
    f.pgn = Except.ok (f.reserved <<< 17 ||| f.data_page <<< 16 |||
      f.pdu_format <<< 8 ||| f.pdu_specific) := by
  unfold J1939FrameId.pgn
  rw [if_neg hcond, if_pos ⟨hr, hd, hp, hs⟩]

/-- C6: for every frame id below 2 ^ 29, from_frame_id succeeds; when the
resulting pdu_format is at least 240 the pgn property returns
(reserved<<17)|(data_page<<16)|(pdu_format<<8)|pdu_specific, and the pgn
property raises exactly when pdu_format < 240 and pdu_specific is
non-zero. -/
theorem c6_pgn_law (frame_id : Nat) (h : frame_id < 2 ^ 29) :
    ∃ f, J1939FrameId.from_frame_id frame_id = Except.ok f ∧
      (240 ≤ f.pdu_format →
        f.pgn = Except.ok (f.reserved <<< 17 ||| f.data_page <<< 16 |||
          f.pdu_format <<< 8 ||| f.pdu_specific)) ∧
      ((∃ e, f.pgn = Except.error e) ↔ f.pdu_format < 240 ∧ f.pdu_specific ≠ 0) := by
  refine ⟨{ priority := frame_id >>> 26, reserved := (frame_id >>> 25) % 2,
            data_page := (frame_id >>> 24) % 2, pdu_format := (frame_id >>> 16) % 256,
            pdu_specific := (frame_id >>> 8) % 256, source_address := frame_id % 256 },
          ?_, ?_, ?_⟩
  · unfold J1939FrameId.from_frame_id
    rw [if_pos h]
  · intro hpf
    refine pgn_ok_of_ranges _ ?_ ?_ ?_ ?_ ?_ <;> dsimp only <;> dsimp only at hpf <;> omega
  · constructor
    · rintro ⟨e, he⟩
      by_contra hc
      rw [pgn_ok_of_ranges _ (by dsimp only; omega) (by dsimp only; omega)
        (by dsimp only; omega) (by dsimp only; omega) hc] at he
      cases he
    · rintro ⟨h1, h2⟩
      refine ⟨PyErr.error "Expected PDU specific 0 when PDU format is 0..239", ?_⟩
      unfold J1939FrameId.pgn
      rw [if_pos ⟨h1, h2⟩]

/-- Witness for c6_pgn_law at the concrete frame id 0x18EEFF00. -/
theorem c6_pgn_law_witness :
    (0x18EEFF00 : Nat) < 2 ^ 29 ∧
    ∃ f, J1939FrameId.from_frame_id 0x18EEFF00 = Except.ok f ∧
      (240 ≤ f.pdu_format →
        f.pgn = Except.ok (f.reserved <<< 17 ||| f.data_page <<< 16 |||
          f.pdu_format <<< 8 ||| f.pdu_specific)) ∧
      ((∃ e, f.pgn = Except.error e) ↔ f.pdu_format < 240 ∧ f.pdu_specific ≠ 0) :=
  ⟨by norm_num, c6_pgn_law 0x18EEFF00 (by norm_num)⟩

/-- C10: the Signal constructor completes normally exactly when its
parent argument is a message whose signal list is empty at construction
time; a None parent raises AttributeError from None.signals, and a parent
whose message already holds a signal raises AttributeError from the
read of the not-yet-assigned _multiplexer_signal attribute inside
SG_MUL_VAL.__init__. -/
theorem c10_signal_init_precondition (parent : Option Msg) (name : String)
    (start length : Nat) (byte_order : ByteOrder) (is_signed : Bool) (scale offset : ℚ)
    (multiplexer_ids : List ℤ) (multiplexer_signal : Option String) (is_float : Bool) :
    ((∃ s, Signal_init parent name start length byte_order is_signed scale offset
        multiplexer_ids multiplexer_signal is_float = Except.ok s) ↔
      (∃ m, parent = some m ∧ m.signals = [])) ∧
    (parent = none → Signal_init parent name start length byte_order is_signed scale offset
        multiplexer_ids multiplexer_signal is_float =
      Except.error (PyErr.attributeError "NoneType object has no attribute signals")) ∧
    (∀ m, parent = some m → m.signals ≠ [] →
      Signal_init parent name start length byte_order is_signed scale offset
        multiplexer_ids multiplexer_signal is_float =
      Except.error (PyErr.attributeError "SG_MUL_VAL object has no attribute _multiplexer_signal")) := by
  match parent with
  | none =>
      simp [Signal_init, sgMulValInit]
  | some m =>
      match hm : m.signals with
      | [] =>
          simp [Signal_init, sgMulValInit, hm]
      | s :: rest =>
          simp [Signal_init, sgMulValInit, hm]

/-- Witness for c10_signal_init_precondition: a signal attached to an
empty message constructs normally. -/
theorem c10_signal_init_precondition_witness :
    ∃ s, Signal_init (some msgW10)
      "SigW10" 0 8 ByteOrder.little_endian false 1 0 [] none false = Except.ok s :=
  (c10_signal_init_precondition (some msgW10)
      "SigW10" 0 8 ByteOrder.little_endian false 1 0 [] none false).1.mpr
    ⟨msgW10, rfl, rfl⟩

/-- Helper: Rat.floor agrees with the mathematical floor. -/
theorem ratFloor_eq_floor (q : ℚ) : q.floor = ⌊q⌋ := by
  rw [Rat.floor_def']
  rw [← Rat.floor_def]

/-- Helper: roundHalfEven rounds to a nearest integer and picks the even
one on ties — this pins down the Decimal ROUND_HALF_EVEN semantics. -/
theorem roundHalfEven_spec (q : ℚ) :
    |(roundHalfEven q : ℚ) - q| ≤ 1 / 2 ∧
    (|(roundHalfEven q : ℚ) - q| = 1 / 2 → roundHalfEven q % 2 = 0) := by
  unfold roundHalfEven
  rw [ratFloor_eq_floor]
  have h0 : (0 : ℚ) ≤ q - ⌊q⌋ := sub_nonneg.mpr (Int.floor_le q)
  have h1 : q - ⌊q⌋ < 1 := by
    have := Int.lt_floor_add_one q
    linarith
  by_cases hlt : q - ⌊q⌋ < 1 / 2
  · rw [if_pos hlt]
    have habs : |(⌊q⌋ : ℚ) - q| = q - ⌊q⌋ := by
      rw [abs_sub_comm, abs_of_nonneg h0]
    constructor
    · rw [habs]; linarith
    · intro he; rw [habs] at he; linarith
  · rw [if_neg hlt]
    by_cases hgt : 1 / 2 < q - ⌊q⌋
    · rw [if_pos hgt]
      have habs : |((⌊q⌋ + 1 : ℤ) : ℚ) - q| = 1 - (q - ⌊q⌋) := by
        push_cast
        rw [abs_of_nonneg (by linarith)]
        ring
      constructor
      · rw [habs]; linarith
      · intro he; rw [habs] at he; linarith
    · rw [if_neg hgt]
      have heq : q - ⌊q⌋ = 1 / 2 := le_antisymm (not_lt.mp hgt) (not_lt.mp hlt)
      by_cases hev : ⌊q⌋ % 2 = 0
      · rw [if_pos hev]
        have habs : |(⌊q⌋ : ℚ) - q| = 1 / 2 := by
          rw [abs_sub_comm, abs_of_nonneg h0, heq]
        exact ⟨le_of_eq habs, fun _ => hev⟩
      · rw [if_neg hev]
        have habs : |((⌊q⌋ + 1 : ℤ) : ℚ) - q| = 1 / 2 := by
          push_cast
          rw [abs_of_nonneg (by linarith)]
          linarith
        refine ⟨le_of_eq habs, fun _ => ?_⟩
        omega

/-- Helper: roundHalfEven is the identity on integers. -/
theorem roundHalfEven_intCast (k : ℤ) : roundHalfEven (k : ℚ) = k := by
  unfold roundHalfEven
  rw [ratFloor_eq_floor, Int.floor_intCast]
  rw [if_pos (by norm_num)]

/-- C4 as amended: scaled integer encoding computes the exact quotient
(v - offset) / scale and rounds it to the NEAREST integer with ties to
even (the nearest-with-even-ties property stated here determines the
result uniquely), rather than truncating toward zero. -/
theorem c4_round_half_even_amended (s : Sig) (d : Dict PyVal) (v : ℚ)
    (hfloat : s.is_float = false) (hscale : s.scale ≠ 0)
    (hv : dictGet d s.name = some (PyVal.num v)) :
    ∃ r : ℤ, _encode_field s d true = Except.ok r ∧
      |(r : ℚ) - (v - s.offset) / s.scale| ≤ 1 / 2 ∧
      (|(r : ℚ) - (v - s.offset) / s.scale| = 1 / 2 → r % 2 = 0) := by
  refine ⟨roundHalfEven ((v - s.offset) / s.scale), ?_, ?_, ?_⟩
  · unfold _encode_field
    rw [hv]
    simp [hfloat, hscale]
  · exact (roundHalfEven_spec _).1
  · exact (roundHalfEven_spec _).2

/-- Witness for c4_round_half_even_amended at sigC4 with input 1.5. -/
theorem c4_round_half_even_amended_witness :
    sigC4.is_float = false ∧ sigC4.scale ≠ 0 ∧
    dictGet [("SigC4", PyVal.num (3 / 2))] sigC4.name = some (PyVal.num (3 / 2)) ∧
    (∃ r : ℤ, _encode_field sigC4 [("SigC4", PyVal.num (3 / 2))] true = Except.ok r ∧
      |(r : ℚ) - (3 / 2 - sigC4.offset) / sigC4.scale| ≤ 1 / 2 ∧
      (|(r : ℚ) - (3 / 2 - sigC4.offset) / sigC4.scale| = 1 / 2 → r % 2 = 0)) :=
  ⟨rfl, by norm_num [sigC4], by with_unfolding_all decide,
   c4_round_half_even_amended sigC4 [("SigC4", PyVal.num (3 / 2))] (3 / 2) rfl
     (by norm_num [sigC4]) (by with_unfolding_all decide)⟩

theorem except_bind_ok {ε α β : Type} {x : Except ε α} {f : α → Except ε β} {b : β}
    (h : x >>= f = Except.ok b) : ∃ a, x = Except.ok a ∧ f a = Except.ok b := by
  cases x with
  | ok a => exact ⟨a, rfl, h⟩
  | error e => exact absurd h (by simp [Bind.bind, Except.bind])

theorem find_map_replace {α : Type} (d : Dict α) (k k2 : String) (v : α) (h : k2 ≠ k) :
    (d.map (fun p => if p.1 == k then (k, v) else p)).find? (fun p => p.1 == k2) =
      d.find? (fun p => p.1 == k2) := by
  induction d with
  | nil => rfl
  | cons a t ih =>
      simp only [List.map_cons, List.find?_cons]
      by_cases hk : a.1 == k
      · rw [if_pos hk]
        have h1 : ((k, v).1 == k2) = false := by
          simp only [beq_eq_false_iff_ne, ne_eq]
          exact fun he => h he.symm
        have h2 : (a.1 == k2) = false := by
          simp only [beq_eq_false_iff_ne, ne_eq]
          intro he
          exact h (by rw [← he]; exact (beq_iff_eq.mp hk).symm ▸ rfl)
        rw [h1, h2]
        exact ih
      · rw [if_neg hk]
        by_cases h2 : a.1 == k2
        · rw [h2]
        · rw [Bool.not_eq_true] at h2
          rw [h2]
          exact ih

theorem dictGet_dictSet_ne {α : Type} (d : Dict α) (k k2 : String) (v : α) (h : k2 ≠ k) :
    dictGet (dictSet d k v) k2 = dictGet d k2 := by
  unfold dictGet dictSet
  split
  · rw [find_map_replace d k k2 v h]
  · rw [List.find?_append]
    cases hf : d.find? (fun p => p.1 == k2) with
    | some a => simp
    | none =>
        simp only [Option.none_or]
        have h1 : (((k, v)).1 == k2) = false := by
          simp only [beq_eq_false_iff_ne, ne_eq]
          exact fun he => h he.symm
        simp [List.find?, h1]

theorem find_map_replace_self {α : Type} (d : Dict α) (k : String) (v : α)
    (hs : (d.find? (fun p => p.1 == k)).isSome) :
    (d.map (fun p => if p.1 == k then (k, v) else p)).find? (fun p => p.1 == k) =
      some (k, v) := by
  induction d with
  | nil => simp [List.find?] at hs
  | cons a t ih =>
      simp only [List.map_cons, List.find?_cons]
      by_cases hk : a.1 == k
      · rw [if_pos hk]
        have : ((k, v).1 == k) = true := by simp
        rw [this]
      · rw [if_neg hk]
        rw [Bool.not_eq_true] at hk
        rw [hk]
        apply ih
        rw [List.find?_cons, hk] at hs
        exact hs

theorem dictGet_dictSet_self {α : Type} (d : Dict α) (k : String) (v : α) :
    dictGet (dictSet d k v) k = some v := by
  unfold dictGet dictSet
  split
  · next hs =>
      rw [find_map_replace_self d k v hs]
      rfl
  · next hs =>
      rw [List.find?_append]
      have hn : d.find? (fun p => p.1 == k) = none := by
        cases hf : d.find? (fun p => p.1 == k) with
        | none => rfl
        | some a => rw [hf] at hs; simp at hs
      rw [hn]
      simp [List.find?]



theorem except_bind_error {ε α β : Type} {x : Except ε α} {f : α → Except ε β} {e : ε}
    (h : x = Except.error e) : x >>= f = Except.error e := by
  rw [h]
  rfl

theorem check_insert_preserves (signals : List Sig) :
    ∀ (data out : Dict PyVal),
      _check_signals_insert signals data = Except.ok out →
      ∀ k val, dictGet data k = some val → dictGet out k = some val := by
  induction signals with
  | nil =>
      intro data out hok k val hk
      cases hok
      exact hk
  | cons t rest ih =>
      intro data out hok k val hk
      unfold _check_signals_insert at hok
      cases hd : dictGet data t.name with
      | some w =>
          rw [hd] at hok
          exact ih data out hok k val hk
      | none =>
          rw [hd] at hok
          cases hg : t.gen_sig_start_value with
          | some g =>
              rw [hg] at hok
              have hkne : k ≠ t.name := by
                intro he
                rw [he, hd] at hk
                cases hk
              refine ih _ out hok k val ?_
              rw [dictGet_dictSet_ne _ _ _ _ hkne]
              exact hk
          | none =>
              rw [hg] at hok
              cases hok

theorem check_insert_error (signals : List Sig) :
    ∀ (data : Dict PyVal) (s : Sig),
      (signals.map Sig.name).Nodup → s ∈ signals →
      dictGet data s.name = none → s.gen_sig_start_value = none →
      ∃ t, t ∈ signals ∧ dictGet data t.name = none ∧ t.gen_sig_start_value = none ∧
        _check_signals_insert signals data =
          Except.error (PyErr.encodeError ("Expected signal value for " ++ t.name ++ " in data")) := by
  induction signals with
  | nil =>
      intro data s _ hs
      cases hs
  | cons t rest ih =>
      intro data s hnodup hs hmiss hg
      rw [List.map_cons, List.nodup_cons] at hnodup
      obtain ⟨hn1, hn2⟩ := hnodup
      rcases List.mem_cons.mp hs with he | hmem
      · subst he
        refine ⟨s, List.mem_cons_self _ _, hmiss, hg, ?_⟩
        unfold _check_signals_insert
        rw [hmiss, hg]
      · cases hd : dictGet data t.name with
        | some w =>
            obtain ⟨t2, ht2, hm2, hg2, hres⟩ := ih data s hn2 hmem hmiss hg
            refine ⟨t2, List.mem_cons_of_mem _ ht2, hm2, hg2, ?_⟩
            unfold _check_signals_insert
            rw [hd]
            exact hres
        | none =>
            cases hgt : t.gen_sig_start_value with
            | some g =>
                have hsne : s.name ≠ t.name := by
                  intro he
                  exact hn1 (he ▸ List.mem_map_of_mem Sig.name hmem)
                have hmiss2 : dictGet (dictSet data t.name (PyVal.num (g + t.offset))) s.name = none := by
                  rw [dictGet_dictSet_ne _ _ _ _ hsne]
                  exact hmiss
                obtain ⟨t2, ht2, hm2, hg2, hres⟩ :=
                  ih (dictSet data t.name (PyVal.num (g + t.offset))) s hn2 hmem hmiss2 hg
                have ht2ne : t2.name ≠ t.name := by
                  intro he
                  exact hn1 (he ▸ List.mem_map_of_mem Sig.name ht2)
                refine ⟨t2, List.mem_cons_of_mem _ ht2, ?_, hg2, ?_⟩
                · rw [dictGet_dictSet_ne _ _ _ _ ht2ne] at hm2
                  exact hm2
                · unfold _check_signals_insert
                  rw [hd, hgt]
                  exact hres
            | none =>
                refine ⟨t, List.mem_cons_self _ _, hd, hgt, ?_⟩
                unfold _check_signals_insert
                rw [hd, hgt]

theorem check_insert_sub (signals : List Sig) :
    ∀ (data out : Dict PyVal) (s : Sig) (g : ℚ),
      (signals.map Sig.name).Nodup → s ∈ signals →
      dictGet data s.name = none → s.gen_sig_start_value = some g →
      _check_signals_insert signals data = Except.ok out →
      dictGet out s.name = some (PyVal.num (g + s.offset)) := by
  induction signals with
  | nil =>
      intro data out s g _ hs
      cases hs
  | cons t rest ih =>
      intro data out s g hnodup hs hmiss hg hok
      rw [List.map_cons, List.nodup_cons] at hnodup
      obtain ⟨hn1, hn2⟩ := hnodup
      unfold _check_signals_insert at hok
      rcases List.mem_cons.mp hs with he | hmem
      · subst he
        rw [hmiss, hg] at hok
        refine check_insert_preserves rest _ out hok s.name _ ?_
        exact dictGet_dictSet_self data s.name _
      · have hsne : s.name ≠ t.name := by
          intro he
          exact hn1 (he ▸ List.mem_map_of_mem Sig.name hmem)
        cases hd : dictGet data t.name with
        | some w =>
            rw [hd] at hok
            exact ih data out s g hn2 hmem hmiss hg hok
        | none =>
            cases hgt : t.gen_sig_start_value with
            | some g2 =>
                rw [hd, hgt] at hok
                refine ih _ out s g hn2 hmem ?_ hg hok
                rw [dictGet_dictSet_ne _ _ _ _ hsne]
                exact hmiss
            | none =>
                rw [hd, hgt] at hok
                cases hok

theorem check_signals_ok (signals : List Sig) (data : Dict PyVal) (scaling : Bool)
    (out : Dict PyVal) (hok : _check_signals signals data scaling = Except.ok out) :
    _check_signals_insert signals data = Except.ok out := by
  unfold _check_signals at hok
  obtain ⟨d1, h1, h2⟩ := except_bind_ok hok
  cases scaling with
  | false =>
      simp only [Bool.false_eq_true, if_false] at h2
      cases h2
      exact h1
  | true =>
      simp only [if_true] at h2
      obtain ⟨u, h3, h4⟩ := except_bind_ok h2
      cases h4
      exact h1

theorem check_signals_error (signals : List Sig) (data : Dict PyVal) (scaling : Bool)
    (e : PyErr) (he : _check_signals_insert signals data = Except.error e) :
    _check_signals signals data scaling = Except.error e := by
  unfold _check_signals
  exact except_bind_error he



theorem foldlM_muxstep_preserves (msgSignals : List Sig)
    (encChild : Codec → Dict PyVal → Except PyErr (Dict PyVal × Nat × Nat))
    (hchild : ∀ c d out, encChild c d = Except.ok out →
      ∀ k val, dictGet d k = some val → dictGet out.1 k = some val) :
    ∀ (muxes : List (String × List (ℤ × Codec))) (st out : Dict PyVal × Nat × Nat),
      List.foldlM (encodeMuxStep msgSignals encChild) st muxes = Except.ok out →
      ∀ k val, dictGet st.1 k = some val → dictGet out.1 k = some val := by
  intro muxes
  induction muxes with
  | nil =>
      intro st out h k val hk
      cases h
      exact hk
  | cons e rest ih =>
      intro st out h k val hk
      rw [List.foldlM_cons] at h
      obtain ⟨st1, h1, h2⟩ := except_bind_ok h
      unfold encodeMuxStep at h1
      obtain ⟨mux, hm1, hm2⟩ := except_bind_ok h1
      rcases hfind : e.2.find? (fun p =>
          match mux with
          | some m => p.1 == m
          | none => false) with _ | pc
      · rw [hfind] at hm2
        cases hm2
      · rw [hfind] at hm2
        obtain ⟨sub, hs1, hs2⟩ := except_bind_ok hm2
        cases hs2
        refine ih _ out h2 k val ?_
        exact hchild pc.2 st.1 sub hs1 k val hk

theorem encodeNode_preserves (msgSignals : List Sig) :
    ∀ (fuel : Nat) (c : Codec) (data : Dict PyVal) (scaling strict : Bool)
      (out : Dict PyVal × Nat × Nat),
      encodeNode msgSignals fuel c data scaling strict = Except.ok out →
      ∀ k val, dictGet data k = some val → dictGet out.1 k = some val := by
  intro fuel
  induction fuel with
  | zero =>
      intro c data scaling strict out h
      cases h
  | succ n ih =>
      intro c data scaling strict out h
      cases c with
      | node signals formats muxes =>
          unfold encodeNode at h
          obtain ⟨d1, h1, h2⟩ := except_bind_ok h
          obtain ⟨enc, h3, h4⟩ := except_bind_ok h2
          intro k val hk
          have hd1 : dictGet d1 k = some val := by
            cases strict with
            | false =>
                simp only [Bool.false_eq_true, if_false] at h1
                cases h1
                exact hk
            | true =>
                simp only [if_true] at h1
                exact check_insert_preserves signals data d1
                  (check_signals_ok signals data scaling d1 h1) k val hk
          exact foldlM_muxstep_preserves msgSignals _
            (fun c d out h => ih c d scaling strict out h)
            muxes (d1, enc, formats.padding_mask) out h4 k val hd1

theorem c5_missing_signal_amended (msgSignals : List Sig) (fuel : Nat)
    (signals : List Sig) (formats : Formats) (muxes : List (String × List (ℤ × Codec)))
    (data : Dict PyVal) (scaling : Bool)
    (hnodup : (signals.map Sig.name).Nodup) :
    (∀ s ∈ signals, dictGet data s.name = none → s.gen_sig_start_value = none →
      ∃ t, t ∈ signals ∧ dictGet data t.name = none ∧ t.gen_sig_start_value = none ∧
        encodeNode msgSignals (fuel + 1) (Codec.node signals formats muxes) data scaling true =
          Except.error (PyErr.encodeError ("Expected signal value for " ++ t.name ++ " in data"))) ∧
    (∀ s ∈ signals, dictGet data s.name = none → ∀ g, s.gen_sig_start_value = some g →
      ∀ out, encodeNode msgSignals (fuel + 1) (Codec.node signals formats muxes) data scaling true =
          Except.ok out →
        dictGet out.1 s.name = some (PyVal.num (g + s.offset))) ∧
    (∀ out, encodeNode msgSignals (fuel + 1) (Codec.node signals formats muxes) data scaling true =
        Except.ok out →
      ∀ s ∈ signals, dictGet data s.name ≠ none ∨ s.gen_sig_start_value ≠ none) := by
  refine ⟨?_, ?_, ?_⟩
  · intro s hs hmiss hg
    obtain ⟨t, ht, hm, hgt, hres⟩ := check_insert_error signals data s hnodup hs hmiss hg
    refine ⟨t, ht, hm, hgt, ?_⟩
    unfold encodeNode
    simp only [if_true]
    exact except_bind_error (check_signals_error signals data scaling _ hres)
  · intro s hs hmiss g hg out hok
    unfold encodeNode at hok
    obtain ⟨d1, h1, h2⟩ := except_bind_ok hok
    simp only [if_true] at h1
    obtain ⟨enc, h3, h4⟩ := except_bind_ok h2
    have hd1 : dictGet d1 s.name = some (PyVal.num (g + s.offset)) :=
      check_insert_sub signals data d1 s g hnodup hs hmiss hg
        (check_signals_ok signals data scaling d1 h1)
    exact foldlM_muxstep_preserves msgSignals _
      (fun c d out h => encodeNode_preserves msgSignals fuel c d scaling true out h)
      muxes (d1, enc, formats.padding_mask) out h4 s.name _ hd1
  · intro out hok s hs
    by_contra hc
    rw [not_or, not_not, not_not] at hc
    obtain ⟨hmiss, hg⟩ := hc
    obtain ⟨t, _, _, _, hres⟩ := check_insert_error signals data s hnodup hs hmiss hg
    have herr : encodeNode msgSignals (fuel + 1) (Codec.node signals formats muxes) data
        scaling true =
        Except.error (PyErr.encodeError ("Expected signal value for " ++ t.name ++ " in data")) := by
      unfold encodeNode
      simp only [if_true]
      exact except_bind_error (check_signals_error signals data scaling _ hres)
    rw [herr] at hok
    cases hok



theorem c5_missing_signal_amended_witness :
    ([sigC5].map Sig.name).Nodup ∧ sigC5 ∈ [sigC5] ∧
    dictGet ([] : Dict PyVal) sigC5.name = none ∧ sigC5.gen_sig_start_value = some 5 ∧
    ∃ out, encodeNode [sigC5] (0 + 1)
        (Codec.node [sigC5] (create_encode_decode_formats [sigC5] 1) []) [] true true =
        Except.ok out ∧
      dictGet out.1 sigC5.name = some (PyVal.num (5 + sigC5.offset)) := by
  refine ⟨by simp, by simp, rfl, rfl, ?_⟩
  have hok : encodeNode [sigC5] (0 + 1)
      (Codec.node [sigC5] (create_encode_decode_formats [sigC5] 1) []) [] true true =
      Except.ok ([("SigC5", PyVal.num 5)], 5, 0) := by
    with_unfolding_all decide
  exact ⟨_, hok, (c5_missing_signal_amended [sigC5] 0 [sigC5]
    (create_encode_decode_formats [sigC5] 1) [] [] true (by simp)).2.1 sigC5 (by simp)
    rfl 5 rfl _ hok⟩

theorem packGo_nil (unp : Dict ℤ) (acc : Nat) : packGo unp [] acc = Except.ok acc := rfl

theorem packGo_pad (unp : Dict ℤ) (n : Nat) (rest : List PackItem) (acc : Nat) :
    packGo unp (PackItem.pad n :: rest) acc = packGo unp rest (acc * 2 ^ n) := rfl

theorem packGo_fld (unp : Dict ℤ) (s : Sig) (rest : List PackItem) (acc : Nat) :
    packGo unp (PackItem.fld s :: rest) acc =
      match dictGet unp s.name with
      | none => Except.error (PyErr.keyError s.name)
      | some v =>
          if s.is_float = true then Except.error PyErr.floatNotModelled
          else if s.is_signed = true then
            if -(2 ^ (s.length - 1) : ℤ) ≤ v ∧ v < 2 ^ (s.length - 1) then
              packGo unp rest (acc * 2 ^ s.length + (v % (2 ^ s.length : ℤ)).toNat)
            else Except.error (PyErr.bitstructError s.name)
          else if 0 ≤ v ∧ v < (2 ^ s.length : ℤ) then
            packGo unp rest (acc * 2 ^ s.length + v.toNat)
          else Except.error (PyErr.bitstructError s.name) := rfl

theorem createBigGo_nil (N c : Nat) :
    createBigGo N [] c = if c < N then [PackItem.pad (N - c)] else [] := rfl

theorem createBigGo_cons (N : Nat) (s : Sig) (rest : List Sig) (c : Nat) :
    createBigGo N (s :: rest) c =
      if s.byte_order = ByteOrder.little_endian then createBigGo N rest c
      else (if c < start_bit s then [PackItem.pad (start_bit s - c)] else []) ++
        PackItem.fld s :: createBigGo N rest (start_bit s + s.length) := rfl

theorem createLittleGo_nil (e : Nat) :
    createLittleGo [] e = if 0 < e then [PackItem.pad e] else [] := rfl

theorem createLittleGo_cons (s : Sig) (rest : List Sig) (e : Nat) :
    createLittleGo (s :: rest) e =
      if s.byte_order = ByteOrder.big_endian then createLittleGo rest e
      else (if s.start + s.length < e then [PackItem.pad (e - (s.start + s.length))] else []) ++
        PackItem.fld s :: createLittleGo rest s.start := rfl

theorem byte_order_little_of_not_big (s : Sig) (h : ¬s.byte_order = ByteOrder.big_endian) :
    s.byte_order = ByteOrder.little_endian := by
  cases hb : s.byte_order
  · exact absurd hb h
  · rfl

theorem byte_order_big_of_not_little (s : Sig) (h : ¬s.byte_order = ByteOrder.little_endian) :
    s.byte_order = ByteOrder.big_endian := by
  cases hb : s.byte_order
  · rfl
  · exact absurd hb h

theorem rawBits_lt (s : Sig) (v : ℤ) : rawBits s v < 2 ^ s.length := by
  unfold rawBits
  have h2 : (0 : ℤ) < 2 ^ s.length := by positivity
  have h3 := Int.emod_lt_of_pos v h2
  have h4 := Int.emod_nonneg v (ne_of_gt h2)
  have h5 : ((2 : ℤ) ^ s.length) = ((2 ^ s.length : Nat) : ℤ) := by push_cast; ring
  omega

theorem rawBits_of_unsigned (s : Sig) (v : ℤ) (hs : s.is_signed = false)
    (hr : inRange s v) : v.toNat = rawBits s v := by
  unfold rawBits
  rcases hr with ⟨hsig, _⟩ | ⟨_, h0, hlt⟩
  · rw [hs] at hsig; cases hsig
  · rw [Int.emod_eq_of_lt h0 hlt]

theorem packGo_append (unp : Dict ℤ) (l2 : List PackItem) :
    ∀ (l1 : List PackItem) (acc : Nat),
      packGo unp (l1 ++ l2) acc = (packGo unp l1 acc) >>= fun v => packGo unp l2 v := by
  intro l1
  induction l1 with
  | nil => intro acc; rfl
  | cons it rest ih =>
      intro acc
      cases it with
      | pad n =>
          rw [List.cons_append, packGo_pad, packGo_pad]
          exact ih _
      | fld s =>
          rw [List.cons_append, packGo_fld, packGo_fld]
          cases hd : dictGet unp s.name with
          | none => rfl
          | some v =>
              by_cases hf : s.is_float = true
              · simp only [if_pos hf]; rfl
              · simp only [if_neg hf]
                by_cases hsg : s.is_signed = true
                · simp only [if_pos hsg]
                  by_cases hr : -(2 ^ (s.length - 1) : ℤ) ≤ v ∧ v < 2 ^ (s.length - 1)
                  · simp only [if_pos hr]; exact ih _
                  · simp only [if_neg hr]; rfl
                · simp only [if_neg hsg]
                  by_cases hr : 0 ≤ v ∧ v < (2 ^ s.length : ℤ)
                  · simp only [if_pos hr]; exact ih _
                  · simp only [if_neg hr]; rfl

theorem bigLayoutOK_le (N : Nat) : ∀ (sigs : List Sig) (c : Nat), bigLayoutOK N sigs c → c ≤ N := by
  intro sigs
  induction sigs with
  | nil => intro c h; exact h
  | cons s rest ih =>
      intro c h
      unfold bigLayoutOK at h
      split at h
      · exact le_trans (le_trans h.1 (Nat.le_add_right _ _)) (ih _ h.2)
      · exact ih _ h

theorem bigSum_lt (N : Nat) (raw : Sig → ℤ) :
    ∀ (sigs : List Sig) (c : Nat), bigLayoutOK N sigs c →
      bigSum N raw sigs < 2 ^ (N - c) := by
  intro sigs
  induction sigs with
  | nil =>
      intro c _
      unfold bigSum
      positivity
  | cons s rest ih =>
      intro c h
      unfold bigLayoutOK at h
      unfold bigSum
      split at h
      · next hbo =>
          rw [if_pos hbo]
          obtain ⟨hc, hrest⟩ := h
          have hsb := bigLayoutOK_le N rest _ hrest
          have h1 : bigSum N raw rest < 2 ^ (N - (start_bit s + s.length)) := ih _ hrest
          have h2 : rawBits s (raw s) < 2 ^ s.length := rawBits_lt s (raw s)
          have he : 2 ^ s.length * 2 ^ (N - start_bit s - s.length) = 2 ^ (N - start_bit s) := by
            rw [← pow_add]
            congr 1
            omega
          have he2 : N - (start_bit s + s.length) = N - start_bit s - s.length := by omega
          rw [he2] at h1
          have hstep : (rawBits s (raw s) + 1) * 2 ^ (N - start_bit s - s.length) ≤
              2 ^ (N - start_bit s) := by
            calc (rawBits s (raw s) + 1) * 2 ^ (N - start_bit s - s.length)
                ≤ 2 ^ s.length * 2 ^ (N - start_bit s - s.length) :=
                  Nat.mul_le_mul_right _ h2
              _ = 2 ^ (N - start_bit s) := he
          have hmono : (2 : Nat) ^ (N - start_bit s) ≤ 2 ^ (N - c) :=
            Nat.pow_le_pow_right (by norm_num) (by omega)
          nlinarith [h1, hstep, hmono]
      · next hbo =>
          have hlit := byte_order_little_of_not_big s hbo
          rw [if_neg (by rw [hlit]; intro hx; cases hx)]
          simpa using ih _ h

theorem itemsTotal_append (l1 l2 : List PackItem) :
    itemsTotal (l1 ++ l2) = itemsTotal l1 + itemsTotal l2 := by
  unfold itemsTotal
  rw [List.map_append, List.sum_append]

theorem itemsTotal_createBig (N : Nat) :
    ∀ (sigs : List Sig) (c : Nat), bigLayoutOK N sigs c →
      itemsTotal (createBigGo N sigs c) = N - c := by
  intro sigs
  induction sigs with
  | nil =>
      intro c h
      rw [createBigGo_nil]
      split
      · simp [itemsTotal, PackItem.bitLen]
      · simp only [itemsTotal, List.map_nil, List.sum_nil]
        omega
  | cons s rest ih =>
      intro c h
      unfold bigLayoutOK at h
      rw [createBigGo_cons]
      split at h
      · next hbo =>
          rw [if_neg (by rw [hbo]; intro hx; cases hx)]
          obtain ⟨hc, hrest⟩ := h
          have hsb := bigLayoutOK_le N rest _ hrest
          rw [itemsTotal_append]
          have h2 : itemsTotal (PackItem.fld s :: createBigGo N rest (start_bit s + s.length)) =
              s.length + (N - (start_bit s + s.length)) := by
            unfold itemsTotal
            rw [List.map_cons, List.sum_cons]
            have := ih _ hrest
            unfold itemsTotal at this
            rw [this]
            rfl
          rw [h2]
          by_cases hlt : c < start_bit s
          · rw [if_pos hlt]
            simp only [itemsTotal, List.map_cons, List.map_nil, List.sum_cons, List.sum_nil,
              PackItem.bitLen]
            omega
          · rw [if_neg hlt]
            simp only [itemsTotal, List.map_nil, List.sum_nil]
            omega
      · next hbo =>
          rw [if_pos (byte_order_little_of_not_big s hbo)]
          exact ih _ h

theorem packGo_createBig (N : Nat) (unp : Dict ℤ) (raw : Sig → ℤ) :
    ∀ (sigs : List Sig) (c acc : Nat),
      (∀ s ∈ sigs, s.is_float = false) →
      (∀ s ∈ sigs, dictGet unp s.name = some (raw s)) →
      (∀ s ∈ sigs, inRange s (raw s)) →
      bigLayoutOK N sigs c →
      packGo unp (createBigGo N sigs c) acc =
        Except.ok (acc * 2 ^ (N - c) + bigSum N raw sigs) := by
  intro sigs
  induction sigs with
  | nil =>
      intro c acc _ _ _ h
      unfold bigLayoutOK at h
      rw [createBigGo_nil]
      unfold bigSum
      split
      · rw [packGo_pad, packGo_nil, Nat.add_zero]
      · rw [packGo_nil]
        have hc : c = N := by omega
        rw [hc]
        simp
  | cons s rest ih =>
      intro c acc hf hd hr h
      unfold bigLayoutOK at h
      rw [createBigGo_cons]
      unfold bigSum
      split at h
      · next hbo =>
          rw [if_neg (show ¬s.byte_order = ByteOrder.little_endian by
            rw [hbo]; intro hx; cases hx)]
          rw [if_pos hbo]
          obtain ⟨hc, hrest⟩ := h
          have hsb := bigLayoutOK_le N rest _ hrest
          have hpads : ∀ acc2 : Nat,
              packGo unp ((if c < start_bit s then [PackItem.pad (start_bit s - c)] else []) ++
                PackItem.fld s :: createBigGo N rest (start_bit s + s.length)) acc2 =
              packGo unp (PackItem.fld s :: createBigGo N rest (start_bit s + s.length))
                (acc2 * 2 ^ (start_bit s - c)) := by
            intro acc2
            by_cases hlt : c < start_bit s
            · rw [if_pos hlt, List.singleton_append, packGo_pad]
            · rw [if_neg hlt]
              have : start_bit s - c = 0 := by omega
              rw [List.nil_append, this, pow_zero, Nat.mul_one]
          rw [hpads]
          rw [packGo_fld, hd s (List.mem_cons_self _ _)]
          dsimp only
          rw [if_neg (show ¬s.is_float = true by
            rw [hf s (List.mem_cons_self _ _)]; intro hx; cases hx)]
          have hrs := hr s (List.mem_cons_self _ _)
          have hnext : ∀ acc3 : Nat,
              packGo unp (createBigGo N rest (start_bit s + s.length)) acc3 =
              Except.ok (acc3 * 2 ^ (N - (start_bit s + s.length)) + bigSum N raw rest) :=
            fun acc3 => ih _ acc3 (fun t ht => hf t (List.mem_cons_of_mem _ ht))
              (fun t ht => hd t (List.mem_cons_of_mem _ ht))
              (fun t ht => hr t (List.mem_cons_of_mem _ ht)) hrest
          have halg : ∀ w : Nat, w < 2 ^ s.length →
              (acc * 2 ^ (start_bit s - c) * 2 ^ s.length + w) *
                2 ^ (N - (start_bit s + s.length)) + bigSum N raw rest =
              acc * 2 ^ (N - c) +
                (w * 2 ^ (N - start_bit s - s.length) + bigSum N raw rest) := by
            intro w _
            have he : 2 ^ (start_bit s - c) * 2 ^ s.length * 2 ^ (N - (start_bit s + s.length)) =
                2 ^ (N - c) := by
              rw [← pow_add, ← pow_add]
              congr 1
              omega
            have he2 : N - (start_bit s + s.length) = N - start_bit s - s.length := by omega
            calc (acc * 2 ^ (start_bit s - c) * 2 ^ s.length + w) *
                  2 ^ (N - (start_bit s + s.length)) + bigSum N raw rest
                = acc * (2 ^ (start_bit s - c) * 2 ^ s.length *
                    2 ^ (N - (start_bit s + s.length))) +
                  (w * 2 ^ (N - (start_bit s + s.length)) + bigSum N raw rest) := by ring
              _ = acc * 2 ^ (N - c) +
                  (w * 2 ^ (N - start_bit s - s.length) + bigSum N raw rest) := by
                  rw [he, he2]
          rcases hrs with ⟨hsg, hlo, hhi⟩ | ⟨hsg, hlo, hhi⟩
          · rw [if_pos hsg, if_pos ⟨hlo, hhi⟩, hnext]
            have : ((raw s % (2 ^ s.length : ℤ)).toNat) = rawBits s (raw s) := rfl
            rw [this, halg _ (rawBits_lt s (raw s))]
          · rw [if_neg (show ¬s.is_signed = true by rw [hsg]; intro hx; cases hx),
              if_pos ⟨hlo, hhi⟩, hnext]
            rw [rawBits_of_unsigned s (raw s) hsg (Or.inr ⟨hsg, hlo, hhi⟩),
              halg _ (rawBits_lt s (raw s))]
      · next hbo =>
          have hlit := byte_order_little_of_not_big s hbo
          rw [if_pos hlit]
          rw [if_neg (show ¬s.byte_order = ByteOrder.big_endian by
            rw [hlit]; intro hx; cases hx)]
          rw [ih _ acc (fun t ht => hf t (List.mem_cons_of_mem _ ht))
            (fun t ht => hd t (List.mem_cons_of_mem _ ht))
            (fun t ht => hr t (List.mem_cons_of_mem _ ht)) h]
          rw [Nat.zero_add]

theorem littleSum_lt (raw : Sig → ℤ) :
    ∀ (sigs : List Sig) (e : Nat), littleLayoutOK sigs e →
      littleSum raw sigs < 2 ^ e := by
  intro sigs
  induction sigs with
  | nil =>
      intro e _
      unfold littleSum
      positivity
  | cons s rest ih =>
      intro e h
      unfold littleLayoutOK at h
      unfold littleSum
      split at h
      · next hbo =>
          rw [if_pos hbo]
          obtain ⟨hse, hrest⟩ := h
          have h1 : littleSum raw rest < 2 ^ s.start := ih _ hrest
          have h2 : rawBits s (raw s) < 2 ^ s.length := rawBits_lt s (raw s)
          have hstep : (rawBits s (raw s) + 1) * 2 ^ s.start ≤ 2 ^ (s.start + s.length) := by
            calc (rawBits s (raw s) + 1) * 2 ^ s.start
                ≤ 2 ^ s.length * 2 ^ s.start := Nat.mul_le_mul_right _ h2
              _ = 2 ^ (s.start + s.length) := by rw [← pow_add]; congr 1; omega
          have hmono : (2 : Nat) ^ (s.start + s.length) ≤ 2 ^ e :=
            Nat.pow_le_pow_right (by norm_num) hse
          nlinarith [h1, hstep, hmono]
      · next hbo =>
          have hbig := byte_order_big_of_not_little s hbo
          rw [if_neg (show ¬s.byte_order = ByteOrder.little_endian by
            rw [hbig]; intro hx; cases hx)]
          simpa using ih _ h

theorem itemsTotal_createLittle :
    ∀ (sigs : List Sig) (e : Nat), littleLayoutOK sigs e →
      itemsTotal (createLittleGo sigs e) = e := by
  intro sigs
  induction sigs with
  | nil =>
      intro e _
      rw [createLittleGo_nil]
      split
      · simp [itemsTotal, PackItem.bitLen]
      · simp only [itemsTotal, List.map_nil, List.sum_nil]
        omega
  | cons s rest ih =>
      intro e h
      unfold littleLayoutOK at h
      rw [createLittleGo_cons]
      split at h
      · next hbo =>
          rw [if_neg (show ¬s.byte_order = ByteOrder.big_endian by
            rw [hbo]; intro hx; cases hx)]
          obtain ⟨hse, hrest⟩ := h
          rw [itemsTotal_append]
          have h2 : itemsTotal (PackItem.fld s :: createLittleGo rest s.start) =
              s.length + s.start := by
            unfold itemsTotal
            rw [List.map_cons, List.sum_cons]
            have := ih _ hrest
            unfold itemsTotal at this
            rw [this]
            rfl
          rw [h2]
          by_cases hlt : s.start + s.length < e
          · rw [if_pos hlt]
            simp only [itemsTotal, List.map_cons, List.map_nil, List.sum_cons, List.sum_nil,
              PackItem.bitLen]
            omega
          · rw [if_neg hlt]
            simp only [itemsTotal, List.map_nil, List.sum_nil]
            omega
      · next hbo =>
          rw [if_pos (byte_order_big_of_not_little s hbo)]
          exact ih _ h

theorem packGo_createLittle (unp : Dict ℤ) (raw : Sig → ℤ) :
    ∀ (sigs : List Sig) (e acc : Nat),
      (∀ s ∈ sigs, s.is_float = false) →
      (∀ s ∈ sigs, dictGet unp s.name = some (raw s)) →
      (∀ s ∈ sigs, inRange s (raw s)) →
      littleLayoutOK sigs e →
      packGo unp (createLittleGo sigs e) acc =
        Except.ok (acc * 2 ^ e + littleSum raw sigs) := by
  intro sigs
  induction sigs with
  | nil =>
      intro e acc _ _ _ _
      rw [createLittleGo_nil]
      unfold littleSum
      split
      · rw [packGo_pad, packGo_nil, Nat.add_zero]
      · rw [packGo_nil]
        have he : e = 0 := by omega
        rw [he]
        simp
  | cons s rest ih =>
      intro e acc hf hd hr h
      unfold littleLayoutOK at h
      rw [createLittleGo_cons]
      unfold littleSum
      split at h
      · next hbo =>
          rw [if_neg (show ¬s.byte_order = ByteOrder.big_endian by
            rw [hbo]; intro hx; cases hx)]
          rw [if_pos hbo]
          obtain ⟨hse, hrest⟩ := h
          have hpads : ∀ acc2 : Nat,
              packGo unp ((if s.start + s.length < e then
                  [PackItem.pad (e - (s.start + s.length))] else []) ++
                PackItem.fld s :: createLittleGo rest s.start) acc2 =
              packGo unp (PackItem.fld s :: createLittleGo rest s.start)
                (acc2 * 2 ^ (e - (s.start + s.length))) := by
            intro acc2
            by_cases hlt : s.start + s.length < e
            · rw [if_pos hlt, List.singleton_append, packGo_pad]
            · rw [if_neg hlt]
              have : e - (s.start + s.length) = 0 := by omega
              rw [List.nil_append, this, pow_zero, Nat.mul_one]
          rw [hpads]
          rw [packGo_fld, hd s (List.mem_cons_self _ _)]
          dsimp only
          rw [if_neg (show ¬s.is_float = true by
            rw [hf s (List.mem_cons_self _ _)]; intro hx; cases hx)]
          have hrs := hr s (List.mem_cons_self _ _)
          have hnext : ∀ acc3 : Nat,
              packGo unp (createLittleGo rest s.start) acc3 =
              Except.ok (acc3 * 2 ^ s.start + littleSum raw rest) :=
            fun acc3 => ih _ acc3 (fun t ht => hf t (List.mem_cons_of_mem _ ht))
              (fun t ht => hd t (List.mem_cons_of_mem _ ht))
              (fun t ht => hr t (List.mem_cons_of_mem _ ht)) hrest
          have halg : ∀ w : Nat, w < 2 ^ s.length →
              (acc * 2 ^ (e - (s.start + s.length)) * 2 ^ s.length + w) * 2 ^ s.start +
                littleSum raw rest =
              acc * 2 ^ e + (w * 2 ^ s.start + littleSum raw rest) := by
            intro w _
            have he : 2 ^ (e - (s.start + s.length)) * 2 ^ s.length * 2 ^ s.start = 2 ^ e := by
              rw [← pow_add, ← pow_add]
              congr 1
              omega
            calc (acc * 2 ^ (e - (s.start + s.length)) * 2 ^ s.length + w) * 2 ^ s.start +
                  littleSum raw rest
                = acc * (2 ^ (e - (s.start + s.length)) * 2 ^ s.length * 2 ^ s.start) +
                  (w * 2 ^ s.start + littleSum raw rest) := by ring
              _ = acc * 2 ^ e + (w * 2 ^ s.start + littleSum raw rest) := by rw [he]
          rcases hrs with ⟨hsg, hlo, hhi⟩ | ⟨hsg, hlo, hhi⟩
          · rw [if_pos hsg, if_pos ⟨hlo, hhi⟩, hnext]
            have hrb : ((raw s % (2 ^ s.length : ℤ)).toNat) = rawBits s (raw s) := rfl
            rw [hrb, halg _ (rawBits_lt s (raw s))]
          · rw [if_neg (show ¬s.is_signed = true by rw [hsg]; intro hx; cases hx),
              if_pos ⟨hlo, hhi⟩, hnext]
            rw [rawBits_of_unsigned s (raw s) hsg (Or.inr ⟨hsg, hlo, hhi⟩),
              halg _ (rawBits_lt s (raw s))]
      · next hbo =>
          have hbig := byte_order_big_of_not_little s hbo
          rw [if_pos hbig]
          rw [if_neg (show ¬s.byte_order = ByteOrder.little_endian by
            rw [hbig]; intro hx; cases hx)]
          rw [ih _ acc (fun t ht => hf t (List.mem_cons_of_mem _ ht))
            (fun t ht => hd t (List.mem_cons_of_mem _ ht))
            (fun t ht => hr t (List.mem_cons_of_mem _ ht)) h]
          rw [Nat.zero_add]

theorem bigLayoutOK_cursor_le (N : Nat) :
    ∀ (sigs : List Sig) (c : Nat), bigLayoutOK N sigs c →
      ∀ s ∈ sigs, s.byte_order = ByteOrder.big_endian → c ≤ start_bit s := by
  intro sigs
  induction sigs with
  | nil => intro c _ s hs; cases hs
  | cons u rest ih =>
      intro c h s hs hbo
      unfold bigLayoutOK at h
      rcases List.mem_cons.mp hs with he | hm
      · subst he
        rw [if_pos hbo] at h
        exact h.1
      · split at h
        · next hu =>
            exact le_trans (le_trans h.1 (Nat.le_add_right _ _)) (ih _ h.2 s hm hbo)
        · exact ih _ h s hm hbo

theorem bigLayoutOK_fits (N : Nat) :
    ∀ (sigs : List Sig) (c : Nat), bigLayoutOK N sigs c →
      ∀ s ∈ sigs, s.byte_order = ByteOrder.big_endian → start_bit s + s.length ≤ N := by
  intro sigs
  induction sigs with
  | nil => intro c _ s hs; cases hs
  | cons u rest ih =>
      intro c h s hs hbo
      unfold bigLayoutOK at h
      rcases List.mem_cons.mp hs with he | hm
      · subst he
        rw [if_pos hbo] at h
        exact bigLayoutOK_le N rest _ h.2
      · split at h
        · exact ih _ h.2 s hm hbo
        · exact ih _ h s hm hbo

theorem bigSum_testBit_mem (N : Nat) (raw : Sig → ℤ) :
    ∀ (sigs : List Sig) (c : Nat), bigLayoutOK N sigs c →
      ∀ s, s ∈ sigs → s.byte_order = ByteOrder.big_endian →
      ∀ t, t < s.length →
      Nat.testBit (bigSum N raw sigs) (N - start_bit s - s.length + t) =
        Nat.testBit (rawBits s (raw s)) t := by
  intro sigs
  induction sigs with
  | nil => intro c _ s hs; cases hs
  | cons u rest ih =>
      intro c h s hs hbo t ht
      unfold bigLayoutOK at h
      unfold bigSum
      by_cases hu : u.byte_order = ByteOrder.big_endian
      · rw [if_pos hu] at h ⊢
        obtain ⟨hc, hrest⟩ := h
        have hfit_u : start_bit u + u.length ≤ N := bigLayoutOK_le N rest _ hrest
        have hb : bigSum N raw rest < 2 ^ (N - start_bit u - u.length) := by
          have := bigSum_lt N raw rest _ hrest
          have he : N - (start_bit u + u.length) = N - start_bit u - u.length := by omega
          rw [← he]
          exact this
        rw [Nat.mul_comm (rawBits u (raw u))]
        rcases List.mem_cons.mp hs with he | hm
        · subst he
          rw [Nat.testBit_mul_pow_two_add _ hb]
          rw [if_neg (by omega)]
          congr 1
          omega
        · have hcur := bigLayoutOK_cursor_le N rest _ hrest s hm hbo
          have hfit_s := bigLayoutOK_fits N rest _ hrest s hm hbo
          rw [Nat.testBit_mul_pow_two_add _ hb]
          rw [if_pos (by omega)]
          exact ih _ hrest s hm hbo t ht
      · rw [if_neg hu] at h ⊢
        rw [Nat.zero_add]
        rcases List.mem_cons.mp hs with he | hm
        · subst he
          exact absurd hbo hu
        · exact ih _ h s hm hbo t ht

theorem bigSum_testBit_off (N : Nat) (raw : Sig → ℤ) :
    ∀ (sigs : List Sig) (c : Nat), bigLayoutOK N sigs c →
      ∀ j, (∀ s ∈ sigs, s.byte_order = ByteOrder.big_endian →
        ¬(N - start_bit s - s.length ≤ j ∧ j < N - start_bit s)) →
      Nat.testBit (bigSum N raw sigs) j = false := by
  intro sigs
  induction sigs with
  | nil =>
      intro c _ j _
      unfold bigSum
      simp
  | cons u rest ih =>
      intro c h j hj
      unfold bigLayoutOK at h
      unfold bigSum
      by_cases hu : u.byte_order = ByteOrder.big_endian
      · rw [if_pos hu] at h ⊢
        obtain ⟨hc, hrest⟩ := h
        have hfit_u : start_bit u + u.length ≤ N := bigLayoutOK_le N rest _ hrest
        have hb : bigSum N raw rest < 2 ^ (N - start_bit u - u.length) := by
          have := bigSum_lt N raw rest _ hrest
          have he : N - (start_bit u + u.length) = N - start_bit u - u.length := by omega
          rw [← he]
          exact this
        rw [Nat.mul_comm (rawBits u (raw u))]
        rw [Nat.testBit_mul_pow_two_add _ hb]
        have hju := hj u (List.mem_cons_self _ _) hu
        by_cases hjlt : j < N - start_bit u - u.length
        · rw [if_pos hjlt]
          exact ih _ hrest j (fun s hm hbo => hj s (List.mem_cons_of_mem _ hm) hbo)
        · rw [if_neg hjlt]
          refine Nat.testBit_lt_two_pow ?_
          have h1 : rawBits u (raw u) < 2 ^ u.length := rawBits_lt u (raw u)
          have h2 : u.length ≤ j - (N - start_bit u - u.length) := by omega
          exact lt_of_lt_of_le h1 (Nat.pow_le_pow_right (by norm_num) h2)
      · rw [if_neg hu] at h ⊢
        rw [Nat.zero_add]
        exact ih _ h j (fun s hm hbo => hj s (List.mem_cons_of_mem _ hm) hbo)

theorem littleLayoutOK_cursor_le :
    ∀ (sigs : List Sig) (e : Nat), littleLayoutOK sigs e →
      ∀ s ∈ sigs, s.byte_order = ByteOrder.little_endian → s.start + s.length ≤ e := by
  intro sigs
  induction sigs with
  | nil => intro e _ s hs; cases hs
  | cons u rest ih =>
      intro e h s hs hbo
      unfold littleLayoutOK at h
      rcases List.mem_cons.mp hs with he | hm
      · subst he
        rw [if_pos hbo] at h
        exact h.1
      · split at h
        · next hu =>
            exact le_trans (le_trans (ih _ h.2 s hm hbo) (Nat.le_add_right _ _)) h.1
        · exact ih _ h s hm hbo

theorem littleSum_testBit_mem (raw : Sig → ℤ) :
    ∀ (sigs : List Sig) (e : Nat), littleLayoutOK sigs e →
      ∀ s, s ∈ sigs → s.byte_order = ByteOrder.little_endian →
      ∀ t, t < s.length →
      Nat.testBit (littleSum raw sigs) (s.start + t) =
        Nat.testBit (rawBits s (raw s)) t := by
  intro sigs
  induction sigs with
  | nil => intro e _ s hs; cases hs
  | cons u rest ih =>
      intro e h s hs hbo t ht
      unfold littleLayoutOK at h
      unfold littleSum
      by_cases hu : u.byte_order = ByteOrder.little_endian
      · rw [if_pos hu] at h ⊢
        obtain ⟨hse, hrest⟩ := h
        have hb : littleSum raw rest < 2 ^ u.start := littleSum_lt raw rest _ hrest
        rw [Nat.mul_comm (rawBits u (raw u))]
        rcases List.mem_cons.mp hs with he | hm
        · subst he
          rw [Nat.testBit_mul_pow_two_add _ hb]
          rw [if_neg (by omega)]
          congr 1
          omega
        · have hcur := littleLayoutOK_cursor_le rest _ hrest s hm hbo
          rw [Nat.testBit_mul_pow_two_add _ hb]
          rw [if_pos (by omega)]
          exact ih _ hrest s hm hbo t ht
      · rw [if_neg hu] at h ⊢
        rw [Nat.zero_add]
        rcases List.mem_cons.mp hs with he | hm
        · subst he
          exact absurd hbo hu
        · exact ih _ h s hm hbo t ht

theorem littleSum_testBit_off (raw : Sig → ℤ) :
    ∀ (sigs : List Sig) (e : Nat), littleLayoutOK sigs e →
      ∀ j, (∀ s ∈ sigs, s.byte_order = ByteOrder.little_endian →
        ¬(s.start ≤ j ∧ j < s.start + s.length)) →
      Nat.testBit (littleSum raw sigs) j = false := by
  intro sigs
  induction sigs with
  | nil =>
      intro e _ j _
      unfold littleSum
      simp
  | cons u rest ih =>
      intro e h j hj
      unfold littleLayoutOK at h
      unfold littleSum
      by_cases hu : u.byte_order = ByteOrder.little_endian
      · rw [if_pos hu] at h ⊢
        obtain ⟨hse, hrest⟩ := h
        have hb : littleSum raw rest < 2 ^ u.start := littleSum_lt raw rest _ hrest
        rw [Nat.mul_comm (rawBits u (raw u))]
        rw [Nat.testBit_mul_pow_two_add _ hb]
        have hju := hj u (List.mem_cons_self _ _) hu
        by_cases hjlt : j < u.start
        · rw [if_pos hjlt]
          exact ih _ hrest j (fun s hm hbo => hj s (List.mem_cons_of_mem _ hm) hbo)
        · rw [if_neg hjlt]
          refine Nat.testBit_lt_two_pow ?_
          have h1 : rawBits u (raw u) < 2 ^ u.length := rawBits_lt u (raw u)
          have h2 : u.length ≤ j - u.start := by omega
          exact lt_of_lt_of_le h1 (Nat.pow_le_pow_right (by norm_num) h2)
      · rw [if_neg hu] at h ⊢
        rw [Nat.zero_add]
        exact ih _ h j (fun s hm hbo => hj s (List.mem_cons_of_mem _ hm) hbo)

theorem revIdx_lt (L i : Nat) (h : i < 8 * L) : revIdx L i < 8 * L := by
  unfold revIdx
  omega

theorem revIdx_invol (L i : Nat) (h : i < 8 * L) : revIdx L (revIdx L i) = i := by
  unfold revIdx
  omega

theorem reverseBytes_lt : ∀ (L x : Nat), reverseBytes L x < 2 ^ (8 * L) := by
  intro L
  induction L with
  | zero => intro x; unfold reverseBytes; norm_num
  | succ n ih =>
      intro x
      unfold reverseBytes
      have h1 : x % 256 < 256 := Nat.mod_lt _ (by norm_num)
      have h2 : reverseBytes n (x / 256) < 2 ^ (8 * n) := ih _
      have h3 : 2 ^ (8 * (n + 1)) = 256 * 2 ^ (8 * n) := by
        rw [Nat.mul_add, Nat.pow_add]
        ring
      rw [h3]
      nlinarith

theorem reverseBytes_testBit :
    ∀ (L x i : Nat), i < 8 * L →
      Nat.testBit (reverseBytes L x) i = Nat.testBit x (revIdx L i) := by
  intro L
  induction L with
  | zero => intro x i h; omega
  | succ n ih =>
      intro x i h
      unfold reverseBytes
      rw [Nat.mul_comm (x % 256)]
      rw [Nat.testBit_mul_pow_two_add _ (reverseBytes_lt n (x / 256))]
      by_cases hi : i < 8 * n
      · rw [if_pos hi, ih _ _ hi]
        have hx : x / 256 = x >>> 8 := by
          rw [Nat.shiftRight_eq_div_pow]
        rw [hx, Nat.testBit_shiftRight]
        congr 1
        unfold revIdx
        omega
      · rw [if_neg hi]
        have h256 : x % 256 = x % 2 ^ 8 := by norm_num
        rw [h256, Nat.testBit_mod_two_pow]
        have hlt : i - 8 * n < 8 := by omega
        rw [decide_eq_true hlt, Bool.true_and]
        congr 1
        unfold revIdx
        omega

theorem natToBytes_length : ∀ (L n : Nat), (natToBytes L n).length = L := by
  intro L
  induction L with
  | zero => intro n; rfl
  | succ l ih =>
      intro n
      unfold natToBytes
      rw [List.length_append, ih]
      rfl

theorem bytesToNat_acc :
    ∀ (l : List Nat) (acc : Nat),
      l.foldl (fun acc b => acc * 256 + b % 256) acc = acc * 256 ^ l.length + bytesToNat l := by
  intro l
  induction l with
  | nil => intro acc; unfold bytesToNat; simp
  | cons b t ih =>
      intro acc
      unfold bytesToNat
      rw [List.foldl_cons, List.foldl_cons, ih, ih (0 * 256 + b % 256)]
      simp [List.length_cons, Nat.pow_succ]
      ring

theorem bytesToNat_append1 (l : List Nat) (b : Nat) :
    bytesToNat (l ++ [b]) = bytesToNat l * 256 + b % 256 := by
  unfold bytesToNat
  rw [List.foldl_append]
  rfl

theorem bytesToNat_cons (b : Nat) (t : List Nat) :
    bytesToNat (b :: t) = b % 256 * 256 ^ t.length + bytesToNat t := by
  unfold bytesToNat
  rw [List.foldl_cons]
  have := bytesToNat_acc t (0 * 256 + b % 256)
  unfold bytesToNat at this
  rw [this]
  ring

theorem bytesToNat_natToBytes :
    ∀ (L n : Nat), n < 2 ^ (8 * L) → bytesToNat (natToBytes L n) = n := by
  intro L
  induction L with
  | zero =>
      intro n h
      have : n = 0 := by
        have h1 : 2 ^ (8 * 0) = 1 := by norm_num
        omega
      subst this
      rfl
  | succ l ih =>
      intro n h
      unfold natToBytes
      rw [bytesToNat_append1]
      have hdiv : n / 256 < 2 ^ (8 * l) := by
        have h3 : 2 ^ (8 * (l + 1)) = 2 ^ (8 * l) * 256 := by
          rw [Nat.mul_add, Nat.pow_add]
        rw [h3] at h
        omega
      rw [ih _ hdiv]
      omega

theorem bytesToNat_reverse_natToBytes :
    ∀ (L n : Nat), bytesToNat ((natToBytes L n).reverse) = reverseBytes L n := by
  intro L
  induction L with
  | zero => intro n; rfl
  | succ l ih =>
      intro n
      unfold natToBytes reverseBytes
      rw [List.reverse_append, List.reverse_singleton, List.singleton_append,
        bytesToNat_cons, List.length_reverse, natToBytes_length, ih]
      have h1 : (256 : Nat) ^ l = 2 ^ (8 * l) := by
        rw [show (256 : Nat) = 2 ^ 8 by norm_num, ← Nat.pow_mul]
      rw [h1, Nat.mod_mod_of_dvd n (dvd_refl 256)]

theorem testBit_extract (x a l t : Nat) :
    Nat.testBit ((x >>> a) % 2 ^ l) t = (decide (t < l) && Nat.testBit x (a + t)) := by
  rw [Nat.testBit_mod_two_pow, Nat.testBit_shiftRight]

theorem extract_eq_of_testBit (w b l : Nat) (hw : w < 2 ^ l) (hb : b < 2 ^ l)
    (h : ∀ t, t < l → w.testBit t = b.testBit t) : w = b := by
  refine Nat.eq_of_testBit_eq (fun t => ?_)
  by_cases ht : t < l
  · exact h t ht
  · have hl : (2 : Nat) ^ l ≤ 2 ^ t := Nat.pow_le_pow_right (by norm_num) (by omega)
    rw [Nat.testBit_lt_two_pow (lt_of_lt_of_le hw hl),
      Nat.testBit_lt_two_pow (lt_of_lt_of_le hb hl)]

theorem rawBits_unsigned_cast (s : Sig) (v : ℤ) (hs : s.is_signed = false)
    (hr : inRange s v) : ((rawBits s v : Nat) : ℤ) = v := by
  rcases hr with ⟨ht, _⟩ | ⟨_, h0, hlt⟩
  · rw [hs] at ht; cases ht
  · unfold rawBits
    rw [Int.emod_eq_of_lt h0 hlt, Int.toNat_of_nonneg h0]

theorem toSignedInt_rawBits_signed (s : Sig) (v : ℤ) (hs : s.is_signed = true)
    (hlen : 0 < s.length) (hr : inRange s v) :
    toSignedInt (rawBits s v) s.length = v := by
  rcases hr with ⟨_, hlo, hhi⟩ | ⟨hf, _⟩
  · unfold rawBits toSignedInt
    have hsplit : (2 : ℤ) ^ s.length = 2 ^ (s.length - 1) * 2 := by
      rw [← pow_succ]
      congr 1
      omega
    have hcast : ((2 ^ (s.length - 1) : Nat) : ℤ) = (2 : ℤ) ^ (s.length - 1) := by
      push_cast
      ring
    by_cases hv : 0 ≤ v
    · have hvlt : v < 2 ^ s.length := by rw [hsplit]; omega
      rw [Int.emod_eq_of_lt hv hvlt]
      have hwn : ((v.toNat : ℤ)) = v := Int.toNat_of_nonneg hv
      have hnb : ¬ (2 ^ (s.length - 1) ≤ v.toNat) := by omega
      rw [if_neg hnb, hwn]
    · push_neg at hv
      have hin0 : (0 : ℤ) ≤ v + 2 ^ s.length := by rw [hsplit]; omega
      have hinlt : v + 2 ^ s.length < 2 ^ s.length := by omega
      have hmod : v % 2 ^ s.length = v + 2 ^ s.length := by
        have h1 : (v + 2 ^ s.length * 1) % 2 ^ s.length = v % 2 ^ s.length :=
          Int.add_mul_emod_self_left v (2 ^ s.length) 1
        rw [mul_one] at h1
        rw [← h1, Int.emod_eq_of_lt hin0 hinlt]
      rw [hmod]
      have hge : 2 ^ (s.length - 1) ≤ (v + 2 ^ s.length).toNat := by
        have h2 : (2 : ℤ) ^ (s.length - 1) ≤ v + 2 ^ s.length := by rw [hsplit]; omega
        omega
      rw [if_pos hge]
      have h3 : ((v + 2 ^ s.length).toNat : ℤ) = v + 2 ^ s.length := Int.toNat_of_nonneg hin0
      omega
  · rw [hs] at hf; cases hf

theorem unpackGo_nil (buf B pos : Nat) (acc : Dict ℤ) :
    unpackGo buf B [] pos acc = Except.ok acc := rfl

theorem unpackGo_pad (buf B : Nat) (n : Nat) (rest : List PackItem) (pos : Nat) (acc : Dict ℤ) :
    unpackGo buf B (PackItem.pad n :: rest) pos acc = unpackGo buf B rest (pos + n) acc := rfl

theorem unpackGo_fld (buf B : Nat) (s : Sig) (rest : List PackItem) (pos : Nat)
    (acc : Dict ℤ) (hf : s.is_float = false) :
    unpackGo buf B (PackItem.fld s :: rest) pos acc =
      unpackGo buf B rest (pos + s.length)
        (dictSet acc s.name (unpackedVal buf s (B - (pos + s.length)))) := by
  conv_lhs => unfold unpackGo
  unfold unpackedVal
  rw [if_neg (show ¬s.is_float = true by rw [hf]; intro hx; cases hx)]

theorem dictGet_foldl_dictSet {α : Type} :
    ∀ (l : List (String × α)) (d : Dict α) (k : String),
      dictGet (l.foldl (fun acc p => dictSet acc p.1 p.2) d) k =
        (match l.reverse.find? (fun p => p.1 == k) with
         | some p => some p.2
         | none => dictGet d k) := by
  intro l
  induction l with
  | nil => intro d k; rfl
  | cons p t ih =>
      intro d k
      rw [List.foldl_cons, ih, List.reverse_cons, List.find?_append]
      cases hfind : t.reverse.find? (fun q => q.1 == k) with
      | some q => rfl
      | none =>
          dsimp only [Option.none_orElse]
          by_cases hk : p.1 = k
          · subst hk
            rw [dictGet_dictSet_self]
            simp [List.find?]
          · rw [dictGet_dictSet_ne _ _ _ _ (fun hx => hk hx.symm)]
            have : ((p.1 == k) : Bool) = false := by
              exact beq_eq_false_iff_ne.mpr hk
            simp [List.find?, this]

theorem dictGet_dictUpdate {α : Type} (d e : Dict α) (k : String) :
    dictGet (dictUpdate d e) k =
      (match e.reverse.find? (fun p => p.1 == k) with
       | some p => some p.2
       | none => dictGet d k) := by
  unfold dictUpdate
  exact dictGet_foldl_dictSet e d k

theorem unpackGo_createBig (N buf : Nat) :
    ∀ (sigs : List Sig) (c : Nat) (acc : Dict ℤ),
      (∀ s ∈ sigs, s.is_float = false) →
      bigLayoutOK N sigs c →
      ∃ D, unpackGo buf N (createBigGo N sigs c) c acc = Except.ok D ∧
        ∀ name, dictGet D name =
          (match (sigs.filter (fun s => s.byte_order == ByteOrder.big_endian)).reverse.find?
              (fun s => s.name == name) with
           | some s => some (unpackedVal buf s (N - start_bit s - s.length))
           | none => dictGet acc name) := by
  intro sigs
  induction sigs with
  | nil =>
      intro c acc _ _
      refine ⟨acc, ?_, ?_⟩
      · rw [createBigGo_nil]
        by_cases hc : c < N
        · rw [if_pos hc, unpackGo_pad, unpackGo_nil]
        · rw [if_neg hc, unpackGo_nil]
      · intro name
        rfl
  | cons u rest ih =>
      intro c acc hfl h
      unfold bigLayoutOK at h
      rw [createBigGo_cons]
      by_cases hu : u.byte_order = ByteOrder.little_endian
      · rw [if_pos hu]
        rw [if_neg (show ¬u.byte_order = ByteOrder.big_endian by rw [hu]; intro hx; cases hx)] at h
        obtain ⟨D, hD, hchar⟩ := ih c acc (fun s hs => hfl s (List.mem_cons_of_mem _ hs)) h
        refine ⟨D, hD, ?_⟩
        intro name
        rw [hchar name]
        rw [List.filter_cons, if_neg (by simp [hu])]
      · rw [if_neg hu]
        have hub : u.byte_order = ByteOrder.big_endian := byte_order_big_of_not_little u hu
        rw [if_pos hub] at h
        obtain ⟨hc, hrest⟩ := h
        have hfu : u.is_float = false := hfl u (List.mem_cons_self _ _)
        have hstep :
            unpackGo buf N
              ((if c < start_bit u then [PackItem.pad (start_bit u - c)] else []) ++
                PackItem.fld u :: createBigGo N rest (start_bit u + u.length)) c acc =
            unpackGo buf N (createBigGo N rest (start_bit u + u.length)) (start_bit u + u.length)
              (dictSet acc u.name (unpackedVal buf u (N - (start_bit u + u.length)))) := by
          by_cases hlt : c < start_bit u
          · rw [if_pos hlt, List.singleton_append, unpackGo_pad]
            have he : c + (start_bit u - c) = start_bit u := by omega
            rw [he, unpackGo_fld _ _ _ _ _ _ hfu]
          · rw [if_neg hlt, List.nil_append]
            have he : c = start_bit u := by omega
            rw [he, unpackGo_fld _ _ _ _ _ _ hfu]
        rw [hstep]
        obtain ⟨D, hD, hchar⟩ :=
          ih (start_bit u + u.length)
            (dictSet acc u.name (unpackedVal buf u (N - (start_bit u + u.length))))
            (fun s hs => hfl s (List.mem_cons_of_mem _ hs)) hrest
        refine ⟨D, hD, ?_⟩
        intro name
        rw [hchar name]
        rw [List.filter_cons, if_pos (by simp [hub]), List.reverse_cons, List.find?_append]
        cases hfind : (List.filter (fun s => s.byte_order == ByteOrder.big_endian) rest).reverse.find?
            (fun s => s.name == name) with
        | some q => rfl
        | none =>
            dsimp only [Option.none_orElse]
            by_cases hn : u.name = name
            · subst hn
              rw [dictGet_dictSet_self]
              simp [List.find?, Nat.sub_sub]
            · rw [dictGet_dictSet_ne _ _ _ _ (fun hx => hn hx.symm)]
              have hb : ((u.name == name) : Bool) = false := beq_eq_false_iff_ne.mpr hn
              simp [List.find?, hb]

theorem unpackGo_createLittle (N buf : Nat) :
    ∀ (sigs : List Sig) (e : Nat) (acc : Dict ℤ),
      (∀ s ∈ sigs, s.is_float = false) →
      littleLayoutOK sigs e →
      e ≤ N →
      ∃ D, unpackGo buf N (createLittleGo sigs e) (N - e) acc = Except.ok D ∧
        ∀ name, dictGet D name =
          (match (sigs.filter (fun s => s.byte_order == ByteOrder.little_endian)).reverse.find?
              (fun s => s.name == name) with
           | some s => some (unpackedVal buf s s.start)
           | none => dictGet acc name) := by
  intro sigs
  induction sigs with
  | nil =>
      intro e acc _ _ _
      refine ⟨acc, ?_, ?_⟩
      · rw [createLittleGo_nil]
        by_cases hc : 0 < e
        · rw [if_pos hc, unpackGo_pad, unpackGo_nil]
        · rw [if_neg hc, unpackGo_nil]
      · intro name
        rfl
  | cons u rest ih =>
      intro e acc hfl h heN
      unfold littleLayoutOK at h
      rw [createLittleGo_cons]
      by_cases hu : u.byte_order = ByteOrder.big_endian
      · rw [if_pos hu]
        rw [if_neg (show ¬u.byte_order = ByteOrder.little_endian by rw [hu]; intro hx; cases hx)] at h
        obtain ⟨D, hD, hchar⟩ := ih e acc (fun s hs => hfl s (List.mem_cons_of_mem _ hs)) h heN
        refine ⟨D, hD, ?_⟩
        intro name
        rw [hchar name]
        rw [List.filter_cons, if_neg (by simp [hu])]
      · rw [if_neg hu]
        have hul : u.byte_order = ByteOrder.little_endian := byte_order_little_of_not_big u hu
        rw [if_pos hul] at h
        obtain ⟨hse, hrest⟩ := h
        have hfu : u.is_float = false := hfl u (List.mem_cons_self _ _)
        have hstep :
            unpackGo buf N
              ((if u.start + u.length < e then [PackItem.pad (e - (u.start + u.length))] else []) ++
                PackItem.fld u :: createLittleGo rest u.start) (N - e) acc =
            unpackGo buf N (createLittleGo rest u.start) (N - u.start)
              (dictSet acc u.name (unpackedVal buf u u.start)) := by
          by_cases hlt : u.start + u.length < e
          · rw [if_pos hlt, List.singleton_append, unpackGo_pad]
            have he : N - e + (e - (u.start + u.length)) = N - (u.start + u.length) := by omega
            rw [he, unpackGo_fld _ _ _ _ _ _ hfu]
            have h1 : N - (N - (u.start + u.length) + u.length) = u.start := by omega
            have h2 : N - (u.start + u.length) + u.length = N - u.start := by omega
            rw [h1, h2]
          · rw [if_neg hlt, List.nil_append]
            have he : N - e = N - (u.start + u.length) := by omega
            rw [he, unpackGo_fld _ _ _ _ _ _ hfu]
            have h1 : N - (N - (u.start + u.length) + u.length) = u.start := by omega
            have h2 : N - (u.start + u.length) + u.length = N - u.start := by omega
            rw [h1, h2]
        rw [hstep]
        obtain ⟨D, hD, hchar⟩ :=
          ih u.start (dictSet acc u.name (unpackedVal buf u u.start))
            (fun s hs => hfl s (List.mem_cons_of_mem _ hs)) hrest (by omega)
        refine ⟨D, hD, ?_⟩
        intro name
        rw [hchar name]
        rw [List.filter_cons, if_pos (by simp [hul]), List.reverse_cons, List.find?_append]
        cases hfind : (List.filter (fun s => s.byte_order == ByteOrder.little_endian) rest).reverse.find?
            (fun s => s.name == name) with
        | some q => rfl
        | none =>
            dsimp only [Option.none_orElse]
            by_cases hn : u.name = name
            · subst hn
              rw [dictGet_dictSet_self]
              simp [List.find?]
            · rw [dictGet_dictSet_ne _ _ _ _ (fun hx => hn hx.symm)]
              have hb : ((u.name == name) : Bool) = false := beq_eq_false_iff_ne.mpr hn
              simp [List.find?, hb]

theorem encode_unpacked_foldlM (data : Dict PyVal) (scaling : Bool) (raw : Sig → ℤ) :
    ∀ (fields : List Sig) (acc : Dict ℤ),
      (∀ f ∈ fields, _encode_field f data scaling = Except.ok (raw f)) →
      ∃ D,
        fields.foldlM
          (fun (acc : Dict ℤ) f =>
            (_encode_field f data scaling) >>= fun v => pure (dictSet acc f.name v)) acc =
          Except.ok D ∧
        ∀ name, dictGet D name =
          (match fields.reverse.find? (fun f => f.name == name) with
           | some f => some (raw f)
           | none => dictGet acc name) := by
  intro fields
  induction fields with
  | nil =>
      intro acc _
      exact ⟨acc, rfl, fun name => rfl⟩
  | cons u rest ih =>
      intro acc h
      rw [List.foldlM_cons, h u (List.mem_cons_self _ _)]
      obtain ⟨D, hD, hchar⟩ :=
        ih (dictSet acc u.name (raw u)) (fun f hf => h f (List.mem_cons_of_mem _ hf))
      refine ⟨D, hD, ?_⟩
      intro name
      rw [hchar name, List.reverse_cons, List.find?_append]
      cases hfind : rest.reverse.find? (fun f => f.name == name) with
      | some q => rfl
      | none =>
          dsimp only [Option.none_orElse]
          by_cases hn : u.name = name
          · subst hn
            rw [dictGet_dictSet_self]
            simp [List.find?]
          · rw [dictGet_dictSet_ne _ _ _ _ (fun hx => hn hx.symm)]
            have hb : ((u.name == name) : Bool) = false := beq_eq_false_iff_ne.mpr hn
            simp [List.find?, hb]

theorem find_name_self :
    ∀ (l : List Sig), (l.map Sig.name).Nodup → ∀ s ∈ l,
      l.find? (fun f => f.name == s.name) = some s := by
  intro l
  induction l with
  | nil => intro _ s hs; cases hs
  | cons u t ih =>
      intro hnd s hs
      rw [List.map_cons, List.nodup_cons] at hnd
      rcases List.mem_cons.mp hs with he | hm
      · subst he
        rw [List.find?_cons_of_pos _ (by simp)]
      · have hne : ((u.name == s.name) : Bool) = false := by
          refine beq_eq_false_iff_ne.mpr ?_
          intro hx
          exact hnd.1 (hx ▸ List.mem_map_of_mem Sig.name hm)
        rw [List.find?_cons_of_neg _ (by simp [hne]), ih hnd.2 s hm]

theorem check_insert_all_present :
    ∀ (signals : List Sig) (data : Dict PyVal),
      (∀ s ∈ signals, (dictGet data s.name).isSome) →
      _check_signals_insert signals data = Except.ok data := by
  intro signals
  induction signals with
  | nil => intro data _; rfl
  | cons u t ih =>
      intro data h
      unfold _check_signals_insert
      cases hd : dictGet data u.name with
      | some v => exact ih data (fun s hs => h s (List.mem_cons_of_mem _ hs))
      | none =>
          have := h u (List.mem_cons_self _ _)
          rw [hd] at this
          cases this

theorem check_ranges_all_ok :
    ∀ (signals : List Sig) (data : Dict PyVal),
      (∀ s ∈ signals, ∃ q, dictGet data s.name = some (PyVal.num q) ∧
        (∀ mn, s.minimum = some mn → ¬(q < mn)) ∧
        (∀ mx, s.maximum = some mx → ¬(mx < q))) →
      _check_signals_ranges_scaling signals data = Except.ok () := by
  intro signals
  induction signals with
  | nil => intro data _; rfl
  | cons u t ih =>
      intro data h
      obtain ⟨q, hq, hmn, hmx⟩ := h u (List.mem_cons_self _ _)
      have hrest : _check_signals_ranges_scaling t data = Except.ok () :=
        ih data (fun s hs => h s (List.mem_cons_of_mem _ hs))
      unfold _check_signals_ranges_scaling
      rw [hq]
      dsimp only
      cases hn : u.minimum with
      | some mn =>
          dsimp only
          rw [if_neg (hmn mn hn)]
          cases hx : u.maximum with
          | some mx => dsimp only; rw [if_neg (hmx mx hx)]; exact hrest
          | none => exact hrest
      | none =>
          dsimp only
          cases hx : u.maximum with
          | some mx => dsimp only; rw [if_neg (hmx mx hx)]; exact hrest
          | none => exact hrest

theorem check_signals_noop (signals : List Sig) (data : Dict PyVal) (scaling : Bool)
    (h : ∀ s ∈ signals, ∃ q, dictGet data s.name = some (PyVal.num q) ∧
      (∀ mn, s.minimum = some mn → ¬(q < mn)) ∧
      (∀ mx, s.maximum = some mx → ¬(mx < q))) :
    _check_signals signals data scaling = Except.ok data := by
  unfold _check_signals
  have hins : _check_signals_insert signals data = Except.ok data :=
    check_insert_all_present signals data (fun s hs => by
      obtain ⟨q, hq, _⟩ := h s hs
      rw [hq]
      rfl)
  rw [hins]
  cases scaling with
  | false => rfl
  | true =>
      show (_check_signals_ranges_scaling signals data >>= fun _ =>
        pure data : Except PyErr (Dict PyVal)) = Except.ok data
      rw [check_ranges_all_ok signals data (fun s hs => h s hs)]
      rfl

theorem createCodecGo_nomux (allSignals : List Sig) (Lb fuel : Nat)
    (h : ∀ s ∈ allSignals, s.multiplexer_signal = none ∧ s.is_multiplexer = false) :
    createCodecGo allSignals Lb (fuel + 1) none none =
      some (Codec.node allSignals (create_encode_decode_formats allSignals Lb) []) := by
  unfold createCodecGo
  dsimp only
  have hsel : allSignals.filter (fun s =>
      s.multiplexer_signal == (none : Option String) &&
      (match (none : Option ℤ) with
       | none => true
       | some v => s.multiplexer_ids.contains v)) = allSignals := by
    refine List.filter_eq_self.mpr ?_
    intro s hs
    simp [(h s hs).1]
  rw [hsel]
  have hfold : ∀ (l : List Sig), (∀ s ∈ l, s.is_multiplexer = false) →
      l.foldr
        (fun s acc =>
          match acc with
          | none => none
          | some ms =>
              if s.is_multiplexer then
                let ids := childrenIds allSignals s
                if ids.isEmpty then some ms
                else
                  match ids.foldr
                    (fun i acc2 =>
                      match acc2,
                        createCodecGo allSignals Lb fuel (some s.name) (some i) with
                      | some cs, some c => some ((i, c) :: cs)
                      | _, _ => none) (some []) with
                  | some cs => some ((s.name, cs) :: ms)
                  | none => none
              else some ms)
        (some ([] : List (String × List (ℤ × Codec)))) = some [] := by
    intro l
    induction l with
    | nil => intro _; rfl
    | cons u t iht =>
        intro hl
        rw [List.foldr_cons, iht (fun s hs => hl s (List.mem_cons_of_mem _ hs))]
        dsimp only
        rw [hl u (List.mem_cons_self _ _)]
        rfl
  rw [hfold allSignals (fun s hs => (h s hs).2)]

theorem createSignalTree_nomux (fuel : Nat) (sigs : List Sig) (formats : Formats) :
    createSignalTree (fuel + 1) (Codec.node sigs formats []) =
      some (sigs.map (fun s => SigTree.leaf s.name)) := by
  unfold createSignalTree
  induction sigs with
  | nil => rfl
  | cons u t ih =>
      rw [List.foldr_cons, ih]
      rfl

theorem checkTreeGo_leaves (msgName : String) (allSignals : List Sig) (fuel : Nat) :
    ∀ (names : List String) (bits : List (Option String)) (warns : List String),
      (∀ n ∈ names, ∃ s, allSignals.find? (fun x => x.name == n) = some s) →
      ∃ r, checkTreeGo msgName allSignals (fuel + 1) (names.map SigTree.leaf) bits warns =
        Except.ok r := by
  intro names
  induction names with
  | nil =>
      intro bits warns _
      exact ⟨(bits, warns), rfl⟩
  | cons n ns ih =>
      intro bits warns h
      obtain ⟨s, hs⟩ := h n (List.mem_cons_self _ _)
      obtain ⟨r, hr⟩ := ih (_check_signal msgName bits s).1
        (warns ++ (_check_signal msgName bits s).2)
        (fun x hx => h x (List.mem_cons_of_mem _ hx))
      refine ⟨r, ?_⟩
      unfold checkTreeGo at hr ⊢
      rw [List.map_cons, List.foldlM_cons]
      have hstep :
          (get_signal_by_name allSignals n >>= fun s2 =>
            pure ((_check_signal msgName bits s2).1,
              warns ++ (_check_signal msgName bits s2).2) :
            Except PyErr (List (Option String) × List String)) =
          Except.ok ((_check_signal msgName bits s).1,
            warns ++ (_check_signal msgName bits s).2) := by
        unfold get_signal_by_name
        rw [hs]
        rfl
      dsimp only
      rw [hstep]
      exact hr

theorem except_ok_bind {a b : Type} (x : a) (f : a → Except PyErr b) :
    (Except.ok x >>= f) = f x := rfl

theorem except_pure_eq {b : Type} (x : b) : (pure x : Except PyErr b) = Except.ok x := rfl

theorem refresh_nomux (m : Msg)
    (hnomux : ∀ s ∈ m.signals, s.multiplexer_signal = none ∧ s.is_multiplexer = false)
    (hlen : ∀ s ∈ m.signals, 0 < s.length)
    (hnodup : (m.signals.map Sig.name).Nodup) :
    ∃ b : BuiltMsg,
      m.refresh none = Except.ok b ∧
      b.frame_id = m.frame_id ∧ b.name = m.name ∧ b.length = m.length ∧
      b.signals = sortSignals m.signals ∧
      b.codecs = Codec.node (sortSignals m.signals)
        (create_encode_decode_formats (sortSignals m.signals) m.length) [] := by
  have hperm : List.Perm (sortSignals m.signals) m.signals := List.perm_insertionSort _ _
  have hmem : ∀ s, s ∈ sortSignals m.signals ↔ s ∈ m.signals := fun s => hperm.mem_iff
  have hnd2 : ((sortSignals m.signals).map Sig.name).Nodup :=
    (hperm.map Sig.name).nodup_iff.mpr hnodup
  have hfind0 : (sortSignals m.signals).find? (fun s => s.length == 0) = none := by
    refine List.find?_eq_none.mpr (fun s hs => ?_)
    have := hlen s ((hmem s).mp hs)
    simp
    omega
  have hcodec : createCodecGo (sortSignals m.signals) m.length (codecFuel m) none none =
      some (Codec.node (sortSignals m.signals)
        (create_encode_decode_formats (sortSignals m.signals) m.length) []) :=
    createCodecGo_nomux (sortSignals m.signals) m.length m.signals.length
      (fun s hs => hnomux s ((hmem s).mp hs))
  have htree : createSignalTree (codecFuel m)
      (Codec.node (sortSignals m.signals)
        (create_encode_decode_formats (sortSignals m.signals) m.length) []) =
      some ((sortSignals m.signals).map (fun s => SigTree.leaf s.name)) :=
    createSignalTree_nomux m.signals.length _ _
  have hmapleaf : (sortSignals m.signals).map (fun s => SigTree.leaf s.name) =
      ((sortSignals m.signals).map Sig.name).map SigTree.leaf := by
    rw [List.map_map]
    rfl
  have hnames : ∀ n ∈ (sortSignals m.signals).map Sig.name,
      ∃ s, (sortSignals m.signals).find? (fun x => x.name == n) = some s := by
    intro n hn
    obtain ⟨s, hs, he⟩ := List.mem_map.mp hn
    exact ⟨s, he ▸ find_name_self _ hnd2 s hs⟩
  cases hstrict : m.strict with
  | true =>
      obtain ⟨r, hr⟩ := checkTreeGo_leaves m.name (sortSignals m.signals) m.signals.length
        ((sortSignals m.signals).map Sig.name) (List.replicate (8 * m.length) none) [] hnames
      refine ⟨{ frame_id := m.frame_id, name := m.name, length := m.length,
                signals := sortSignals m.signals,
                codecs := Codec.node (sortSignals m.signals)
                  (create_encode_decode_formats (sortSignals m.signals) m.length) [],
                signal_tree := (sortSignals m.signals).map (fun s => SigTree.leaf s.name),
                warnings := r.2 }, ?_, rfl, rfl, rfl, rfl, rfl⟩
      unfold Msg.refresh
      dsimp only
      rw [hfind0]
      dsimp only
      rw [hcodec]
      dsimp only
      simp only [except_ok_bind]
      rw [htree]
      dsimp only
      simp only [except_ok_bind, Option.getD_none]
      rw [hstrict]
      rw [if_pos rfl]
      rw [show codecFuel m = m.signals.length + 1 from rfl, hmapleaf, hr]
      simp only [except_ok_bind, except_pure_eq]
  | false =>
      refine ⟨{ frame_id := m.frame_id, name := m.name, length := m.length,
                signals := sortSignals m.signals,
                codecs := Codec.node (sortSignals m.signals)
                  (create_encode_decode_formats (sortSignals m.signals) m.length) [],
                signal_tree := (sortSignals m.signals).map (fun s => SigTree.leaf s.name),
                warnings := [] }, ?_, rfl, rfl, rfl, rfl, rfl⟩
      unfold Msg.refresh
      dsimp only
      rw [hfind0]
      dsimp only
      rw [hcodec]
      dsimp only
      simp only [except_ok_bind]
      rw [htree]
      dsimp only
      simp only [except_ok_bind, Option.getD_none]
      rw [hstrict]
      rw [if_neg (show ¬false = true from fun hx => by cases hx)]
      simp only [except_ok_bind, except_pure_eq]

theorem start_bit_little (s : Sig) (h : s.byte_order = ByteOrder.little_endian) :
    start_bit s = s.start := by
  unfold start_bit
  rw [if_neg (show ¬s.byte_order = ByteOrder.big_endian by rw [h]; intro hx; cases hx)]

theorem name_ne_of_nodup (u : Sig) (rest : List Sig)
    (hnd : ((u :: rest).map Sig.name).Nodup) (v : Sig) (hv : v ∈ rest) : u ≠ v := by
  rw [List.map_cons, List.nodup_cons] at hnd
  intro he
  exact hnd.1 (he ▸ List.mem_map_of_mem Sig.name hv)

theorem bigLayoutOK_of_sorted (L : Nat) :
    ∀ (l : List Sig) (c : Nat),
      l.Pairwise (fun a b => start_bit a ≤ start_bit b) →
      (l.map Sig.name).Nodup →
      (∀ s ∈ l, 0 < s.length) →
      (∀ s ∈ l, s.byte_order = ByteOrder.big_endian → start_bit s + s.length ≤ 8 * L) →
      (∀ s ∈ l, ∀ u ∈ l, s ≠ u → ∀ i, ¬(claimsBit L s i ∧ claimsBit L u i)) →
      (∀ s ∈ l, s.byte_order = ByteOrder.big_endian → c ≤ start_bit s) →
      c ≤ 8 * L →
      bigLayoutOK (8 * L) l c := by
  intro l
  induction l with
  | nil =>
      intro c _ _ _ _ _ _ hc
      exact hc
  | cons u rest ih =>
      intro c hsort hnd hlen hfit hdisj hcur hc
      rw [List.pairwise_cons] at hsort
      have hndr : (rest.map Sig.name).Nodup := by
        rw [List.map_cons, List.nodup_cons] at hnd
        exact hnd.2
      unfold bigLayoutOK
      by_cases hu : u.byte_order = ByteOrder.big_endian
      · rw [if_pos hu]
        have hfu : start_bit u + u.length ≤ 8 * L := hfit u (List.mem_cons_self _ _) hu
        refine ⟨hcur u (List.mem_cons_self _ _) hu, ?_⟩
        refine ih (start_bit u + u.length) hsort.2 hndr
          (fun s hs => hlen s (List.mem_cons_of_mem _ hs))
          (fun s hs hb => hfit s (List.mem_cons_of_mem _ hs) hb)
          (fun s hs v hv hne i => hdisj s (List.mem_cons_of_mem _ hs) v
            (List.mem_cons_of_mem _ hv) hne i)
          ?_ hfu
        intro v hv hvb
        by_contra hlt
        push_neg at hlt
        have hle : start_bit u ≤ start_bit v := hsort.1 v hv
        have hlenu : 0 < u.length := hlen u (List.mem_cons_self _ _)
        have hlenv : 0 < v.length := hlen v (List.mem_cons_of_mem _ hv)
        have hfv : start_bit v + v.length ≤ 8 * L := hfit v (List.mem_cons_of_mem _ hv) hvb
        have hne : u ≠ v := name_ne_of_nodup u rest hnd v hv
        refine hdisj u (List.mem_cons_self _ _) v (List.mem_cons_of_mem _ hv) hne
          (8 * L - start_bit v - 1) ⟨?_, ?_⟩
        · exact ⟨by omega, Or.inl ⟨hu, by omega, by omega⟩⟩
        · exact ⟨by omega, Or.inl ⟨hvb, by omega, by omega⟩⟩
      · rw [if_neg hu]
        exact ih c hsort.2 hndr
          (fun s hs => hlen s (List.mem_cons_of_mem _ hs))
          (fun s hs hb => hfit s (List.mem_cons_of_mem _ hs) hb)
          (fun s hs v hv hne i => hdisj s (List.mem_cons_of_mem _ hs) v
            (List.mem_cons_of_mem _ hv) hne i)
          (fun s hs hb => hcur s (List.mem_cons_of_mem _ hs) hb) hc

theorem littleLayoutOK_of_sorted (L : Nat) :
    ∀ (l : List Sig) (e : Nat),
      l.Pairwise (fun a b => start_bit b ≤ start_bit a) →
      (l.map Sig.name).Nodup →
      (∀ s ∈ l, 0 < s.length) →
      (∀ s ∈ l, s.byte_order = ByteOrder.little_endian → s.start + s.length ≤ 8 * L) →
      (∀ s ∈ l, ∀ u ∈ l, s ≠ u → ∀ i, ¬(claimsBit L s i ∧ claimsBit L u i)) →
      (∀ s ∈ l, s.byte_order = ByteOrder.little_endian → s.start + s.length ≤ e) →
      littleLayoutOK l e := by
  intro l
  induction l with
  | nil =>
      intro e _ _ _ _ _ _
      trivial
  | cons u rest ih =>
      intro e hsort hnd hlen hfit hdisj hcur
      rw [List.pairwise_cons] at hsort
      have hndr : (rest.map Sig.name).Nodup := by
        rw [List.map_cons, List.nodup_cons] at hnd
        exact hnd.2
      unfold littleLayoutOK
      by_cases hu : u.byte_order = ByteOrder.little_endian
      · rw [if_pos hu]
        refine ⟨hcur u (List.mem_cons_self _ _) hu, ?_⟩
        refine ih u.start hsort.2 hndr
          (fun s hs => hlen s (List.mem_cons_of_mem _ hs))
          (fun s hs hb => hfit s (List.mem_cons_of_mem _ hs) hb)
          (fun s hs v hv hne i => hdisj s (List.mem_cons_of_mem _ hs) v
            (List.mem_cons_of_mem _ hv) hne i)
          ?_
        intro v hv hvb
        by_contra hlt
        push_neg at hlt
        have hle : start_bit v ≤ start_bit u := hsort.1 v hv
        rw [start_bit_little v hvb, start_bit_little u hu] at hle
        have hlenu : 0 < u.length := hlen u (List.mem_cons_self _ _)
        have hlenv : 0 < v.length := hlen v (List.mem_cons_of_mem _ hv)
        have hfu : u.start + u.length ≤ 8 * L := hfit u (List.mem_cons_self _ _) hu
        have hfv : v.start + v.length ≤ 8 * L := hfit v (List.mem_cons_of_mem _ hv) hvb
        have hne : u ≠ v := name_ne_of_nodup u rest hnd v hv
        have hus : u.start < 8 * L := by omega
        have hinv : revIdx L (revIdx L u.start) = u.start := revIdx_invol L u.start hus
        refine hdisj u (List.mem_cons_self _ _) v (List.mem_cons_of_mem _ hv) hne
          (revIdx L u.start) ⟨?_, ?_⟩
        · exact ⟨revIdx_lt L u.start hus, Or.inr ⟨hu, by omega, by omega⟩⟩
        · exact ⟨revIdx_lt L u.start hus, Or.inr ⟨hvb, by omega, by omega⟩⟩
      · rw [if_neg hu]
        exact ih e hsort.2 hndr
          (fun s hs => hlen s (List.mem_cons_of_mem _ hs))
          (fun s hs hb => hfit s (List.mem_cons_of_mem _ hs) hb)
          (fun s hs v hv hne i => hdisj s (List.mem_cons_of_mem _ hs) v
            (List.mem_cons_of_mem _ hv) hne i)
          (fun s hs hb => hcur s (List.mem_cons_of_mem _ hs) hb)

theorem rat_num_cast_of_den_one (q : ℚ) (h : q.den = 1) : ((q.num : ℚ)) = q := by
  conv_rhs => rw [← Rat.num_div_den q]
  rw [h]
  norm_num

theorem dictSet_fresh {a : Type} (d : Dict a) (k : String) (v : a)
    (h : dictGet d k = none) : dictSet d k v = d ++ [(k, v)] := by
  unfold dictGet at h
  unfold dictSet
  cases hf : d.find? (fun p => p.1 == k) with
  | some p => rw [hf] at h; cases h
  | none => rfl

theorem dictGet_append {a : Type} (l1 l2 : Dict a) (k : String) :
    dictGet (l1 ++ l2) k =
      (match dictGet l1 k with
       | some v => some v
       | none => dictGet l2 k) := by
  unfold dictGet
  rw [List.find?_append]
  cases hf : l1.find? (fun p => p.1 == k) with
  | some p => rfl
  | none => rfl

theorem dictGet_singleton_ne {a : Type} (k k2 : String) (v : a) (h : k2 ≠ k) :
    dictGet [(k, v)] k2 = none := by
  unfold dictGet
  have hb : ((k == k2) : Bool) = false := beq_eq_false_iff_ne.mpr (fun hx => h hx.symm)
  simp [List.find?, hb]

theorem decode_fold_concrete (unp : Dict ℤ) (dc sc : Bool) (g : Sig → ℤ) :
    ∀ (fields : List Sig) (acc : Dict PyVal),
      (∀ f ∈ fields, dictGet unp f.name = some (g f)) →
      (∀ f ∈ fields, dictGet acc f.name = none) →
      (fields.map Sig.name).Nodup →
      fields.foldlM
        (fun (acc : Dict PyVal) f =>
          match dictGet unp f.name with
          | none => Except.error (PyErr.keyError f.name)
          | some v => pure (dictSet acc f.name (_decode_field f v dc sc))) acc =
      Except.ok (acc ++ fields.map (fun f => (f.name, _decode_field f (g f) dc sc))) := by
  intro fields
  induction fields with
  | nil =>
      intro acc _ _ _
      rw [List.map_nil, List.append_nil]
      rfl
  | cons u t ih =>
      intro acc hg hfresh hnd
      rw [List.foldlM_cons, hg u (List.mem_cons_self _ _)]
      dsimp only
      rw [except_pure_eq, except_ok_bind]
      rw [dictSet_fresh acc u.name _ (hfresh u (List.mem_cons_self _ _))]
      have hndr : (t.map Sig.name).Nodup := by
        rw [List.map_cons, List.nodup_cons] at hnd
        exact hnd.2
      have hfresh2 : ∀ f ∈ t, dictGet (acc ++ [(u.name, _decode_field u (g u) dc sc)]) f.name = none := by
        intro f hf
        rw [dictGet_append, hfresh f (List.mem_cons_of_mem _ hf)]
        have hne : f.name ≠ u.name := by
          rw [List.map_cons, List.nodup_cons] at hnd
          intro hx
          exact hnd.1 (hx ▸ List.mem_map_of_mem Sig.name hf)
        exact dictGet_singleton_ne _ _ _ hne
      rw [ih _ (fun f hf => hg f (List.mem_cons_of_mem _ hf)) hfresh2 hndr]
      rw [List.map_cons, List.append_assoc]
      rfl

theorem dictGet_map_pairs (v : Sig → PyVal) :
    ∀ (fields : List Sig), (fields.map Sig.name).Nodup →
      ∀ s ∈ fields, dictGet (fields.map (fun f => (f.name, v f))) s.name = some (v s) := by
  intro fields
  induction fields with
  | nil => intro _ s hs; cases hs
  | cons u t ih =>
      intro hnd s hs
      rw [List.map_cons, List.nodup_cons] at hnd
      rw [List.map_cons]
      rcases List.mem_cons.mp hs with he | hm
      · subst he
        unfold dictGet
        rw [List.find?_cons_of_pos _ (by simp)]
        rfl
      · have hne : u.name ≠ s.name := by
          intro hx
          exact hnd.1 (hx ▸ List.mem_map_of_mem Sig.name hm)
        have hb : ((u.name == s.name) : Bool) = false := beq_eq_false_iff_ne.mpr hne
        unfold dictGet
        rw [List.find?_cons_of_neg _ (by simp [hb])]
        exact ih hnd.2 s hm

theorem unpackedVal_eq_raw (buf : Nat) (s : Sig) (sh : Nat) (r : ℤ)
    (hlen : 0 < s.length) (hr : inRange s r)
    (h : (buf >>> sh) % 2 ^ s.length = rawBits s r) :
    unpackedVal buf s sh = r := by
  unfold unpackedVal
  rw [h]
  cases hs : s.is_signed with
  | true =>
      rw [if_pos rfl]
      exact toSignedInt_rawBits_signed s r hs hlen hr
  | false =>
      rw [if_neg (show ¬false = true from fun hx => by cases hx)]
      exact rawBits_unsigned_cast s r hs hr

theorem reverseBytes_zero : ∀ (L : Nat), reverseBytes L 0 = 0 := by
  intro L
  induction L with
  | zero => rfl
  | succ n ih =>
      unfold reverseBytes
      rw [Nat.zero_div, ih]
      simp

theorem dictGet_none_of_not_mem_keys {a : Type} :
    ∀ (d : Dict a) (k : String), ¬ k ∈ d.map Prod.fst → dictGet d k = none := by
  intro d
  induction d with
  | nil => intro k _; rfl
  | cons p t ih =>
      intro k hk
      rw [List.map_cons, List.mem_cons] at hk
      push_neg at hk
      unfold dictGet
      have hb : ((p.1 == k) : Bool) = false := beq_eq_false_iff_ne.mpr (fun hx => hk.1 hx.symm)
      rw [List.find?_cons_of_neg _ (by simp [hb])]
      have := ih k hk.2
      unfold dictGet at this
      exact this

theorem unpackGo_keys (buf B : Nat) :
    ∀ (items : List PackItem) (pos : Nat) (acc D : Dict ℤ),
      (acc.map Prod.fst ++ items.filterMap
        (fun it => match it with
          | PackItem.pad _ => none
          | PackItem.fld s => some s.name)).Nodup →
      unpackGo buf B items pos acc = Except.ok D →
      D.map Prod.fst = acc.map Prod.fst ++ items.filterMap
        (fun it => match it with
          | PackItem.pad _ => none
          | PackItem.fld s => some s.name) := by
  intro items
  induction items with
  | nil =>
      intro pos acc D _ hok
      cases hok
      rw [List.filterMap_nil, List.append_nil]
  | cons it rest ih =>
      intro pos acc D hnd hok
      cases it with
      | pad n =>
          rw [unpackGo_pad] at hok
          rw [List.filterMap_cons] at hnd ⊢
          exact ih _ _ _ hnd hok
      | fld s =>
          cases hf : s.is_float with
          | true =>
              unfold unpackGo at hok
              rw [if_pos (by rw [hf])] at hok
              cases hok
          | false =>
              rw [unpackGo_fld _ _ _ _ _ _ hf] at hok
              rw [List.filterMap_cons] at hnd ⊢
              dsimp only at hnd ⊢
              have hfreshk : ¬ s.name ∈ acc.map Prod.fst := by
                intro hmem
                rw [List.nodup_append] at hnd
                exact hnd.2.2 hmem (List.mem_cons_self _ _)
              have hset : dictSet acc s.name (unpackedVal buf s (B - (pos + s.length))) =
                  acc ++ [(s.name, unpackedVal buf s (B - (pos + s.length)))] :=
                dictSet_fresh _ _ _ (dictGet_none_of_not_mem_keys acc s.name hfreshk)
              rw [hset] at hok
              have hnd2 : ((acc ++ [(s.name, unpackedVal buf s (B - (pos + s.length)))]).map
                  Prod.fst ++ rest.filterMap
                    (fun it => match it with
                      | PackItem.pad _ => none
                      | PackItem.fld s => some s.name)).Nodup := by
                rw [List.map_append, List.map_singleton, List.append_assoc]
                rw [List.singleton_append]
                exact hnd
              have := ih _ _ _ hnd2 hok
              rw [this, List.map_append, List.map_singleton, List.append_assoc,
                List.singleton_append]

theorem createBigGo_names (N : Nat) :
    ∀ (sigs : List Sig) (c : Nat),
      (createBigGo N sigs c).filterMap
        (fun it => match it with
          | PackItem.pad _ => none
          | PackItem.fld s => some s.name) =
      (sigs.filter (fun s => s.byte_order == ByteOrder.big_endian)).map Sig.name := by
  intro sigs
  induction sigs with
  | nil =>
      intro c
      rw [createBigGo_nil]
      by_cases hc : c < N
      · rw [if_pos hc]
        rfl
      · rw [if_neg hc]
        rfl
  | cons u rest ih =>
      intro c
      rw [createBigGo_cons, List.filter_cons]
      by_cases hu : u.byte_order = ByteOrder.little_endian
      · rw [if_pos hu, if_neg (show ¬(u.byte_order == ByteOrder.big_endian) = true by
          simp [hu]), ih]
      · have hub : u.byte_order = ByteOrder.big_endian := byte_order_big_of_not_little u hu
        rw [if_neg hu,
          if_pos (show (u.byte_order == ByteOrder.big_endian) = true by simp [hub])]
        by_cases hlt : c < start_bit u
        · rw [if_pos hlt, List.singleton_append, List.filterMap_cons, List.filterMap_cons]
          dsimp only
          rw [ih, List.map_cons]
        · rw [if_neg hlt, List.nil_append, List.filterMap_cons]
          dsimp only
          rw [ih, List.map_cons]

theorem createLittleGo_names :
    ∀ (sigs : List Sig) (e : Nat),
      (createLittleGo sigs e).filterMap
        (fun it => match it with
          | PackItem.pad _ => none
          | PackItem.fld s => some s.name) =
      (sigs.filter (fun s => s.byte_order == ByteOrder.little_endian)).map Sig.name := by
  intro sigs
  induction sigs with
  | nil =>
      intro e
      rw [createLittleGo_nil]
      by_cases hc : 0 < e
      · rw [if_pos hc]
        rfl
      · rw [if_neg hc]
        rfl
  | cons u rest ih =>
      intro e
      rw [createLittleGo_cons, List.filter_cons]
      by_cases hu : u.byte_order = ByteOrder.big_endian
      · rw [if_pos hu, if_neg (show ¬(u.byte_order == ByteOrder.little_endian) = true by
          simp [hu]), ih]
      · have hul : u.byte_order = ByteOrder.little_endian := byte_order_little_of_not_big u hu
        rw [if_neg hu,
          if_pos (show (u.byte_order == ByteOrder.little_endian) = true by simp [hul])]
        by_cases hlt : u.start + u.length < e
        · rw [if_pos hlt, List.singleton_append, List.filterMap_cons, List.filterMap_cons]
          dsimp only
          rw [ih, List.map_cons]
        · rw [if_neg hlt, List.nil_append, List.filterMap_cons]
          dsimp only
          rw [ih, List.map_cons]

theorem find_fst_reverse_of_nodup {a : Type} :
    ∀ (e : Dict a), (e.map Prod.fst).Nodup → ∀ (k : String),
      e.reverse.find? (fun p => p.1 == k) = e.find? (fun p => p.1 == k) := by
  intro e
  induction e with
  | nil => intro _ k; rfl
  | cons p t ih =>
      intro hnd k
      rw [List.map_cons, List.nodup_cons] at hnd
      rw [List.reverse_cons, List.find?_append, ih hnd.2 k]
      cases hf : t.find? (fun q => q.1 == k) with
      | some q =>
          have hqmem : q ∈ t := List.mem_of_find?_eq_some hf
          have hbeq := List.find?_some hf
          have hk : q.1 = k := eq_of_beq hbeq
          have hpk : ((p.1 == k) : Bool) = false := by
            refine beq_eq_false_iff_ne.mpr (fun hx => ?_)
            exact hnd.1 (by rw [hx, ← hk]; exact List.mem_map_of_mem Prod.fst hqmem)
          have h1 : (p :: t).find? (fun q => q.1 == k) = t.find? (fun q => q.1 == k) :=
            List.find?_cons_of_neg _ (by simp [hpk])
          rw [h1, hf]
          rfl
      | none =>
          cases hp : ((p.1 == k) : Bool) with
          | true =>
              have h1 : (p :: t).find? (fun q => q.1 == k) = some p :=
                List.find?_cons_of_pos _ (by simp [hp])
              rw [h1]
              simp [List.find?, hp]
          | false =>
              have h1 : (p :: t).find? (fun q => q.1 == k) = t.find? (fun q => q.1 == k) :=
                List.find?_cons_of_neg _ (by simp [hp])
              rw [h1, hf]
              simp [List.find?, hp]

theorem dictGet_dictUpdate_nodup {a : Type} (d e : Dict a)
    (hnd : (e.map Prod.fst).Nodup) (k : String) :
    dictGet (dictUpdate d e) k =
      (match dictGet e k with
       | some v => some v
       | none => dictGet d k) := by
  rw [dictGet_dictUpdate, find_fst_reverse_of_nodup e hnd k]
  unfold dictGet
  cases hf : e.find? (fun p => p.1 == k) with
  | some q => rfl
  | none => rfl

theorem encode_data_value (S : List Sig) (Lb : Nat) (D : Dict PyVal) (raw : Sig → ℤ)
    (hfl : ∀ s ∈ S, s.is_float = false)
    (hnd : (S.map Sig.name).Nodup)
    (henc : ∀ f ∈ S, _encode_field f D true = Except.ok (raw f))
    (hrange : ∀ s ∈ S, inRange s (raw s))
    (hbig : bigLayoutOK (8 * Lb) S 0)
    (hlittle : littleLayoutOK S.reverse (8 * Lb)) :
    encode_data D S (create_encode_decode_formats S Lb) true =
      Except.ok (bigSum (8 * Lb) raw S |||
        reverseBytes Lb (littleSum raw S.reverse)) := by
  have hndrev : (S.reverse.map Sig.name).Nodup := by
    rw [List.map_reverse]
    exact List.nodup_reverse.mpr hnd
  have hitemsB : itemsTotal (createBigGo (8 * Lb) S 0) = 8 * Lb := by
    rw [itemsTotal_createBig (8 * Lb) S 0 hbig]
    omega
  have hitemsL : itemsTotal (createLittleGo S.reverse (8 * Lb)) = 8 * Lb :=
    itemsTotal_createLittle S.reverse (8 * Lb) hlittle
  have hpadB : packPadBits (createBigGo (8 * Lb) S 0) = 0 := by
    unfold packPadBits packBytesLen
    rw [hitemsB]
    omega
  have hpadL : packPadBits (createLittleGo S.reverse (8 * Lb)) = 0 := by
    unfold packPadBits packBytesLen
    rw [hitemsL]
    omega
  have hblenL : packBytesLen (createLittleGo S.reverse (8 * Lb)) = Lb := by
    unfold packBytesLen
    rw [hitemsL]
    omega
  cases S with
  | nil =>
      unfold encode_data
      rw [if_pos (show ([] : List Sig).isEmpty = true from rfl)]
      unfold bigSum littleSum
      rw [List.reverse_nil]
      unfold littleSum
      rw [reverseBytes_zero]
      rfl
  | cons a t =>
      obtain ⟨U, hU, hUchar⟩ := encode_unpacked_foldlM D true raw (a :: t) [] henc
      have hUget : ∀ s ∈ a :: t, dictGet U s.name = some (raw s) := by
        intro s hs
        rw [hUchar s.name, find_name_self (a :: t).reverse hndrev s (List.mem_reverse.mpr hs)]
      have hbigval : packBytesValue (createBigGo (8 * Lb) (a :: t) 0) U =
          Except.ok (bigSum (8 * Lb) raw (a :: t)) := by
        unfold packBytesValue
        rw [packGo_createBig (8 * Lb) U raw (a :: t) 0 0 hfl hUget hrange hbig]
        rw [except_ok_bind, hpadB]
        rw [except_pure_eq]
        congr 1
        simp
      have hget2 : ∀ s ∈ (a :: t).reverse, dictGet U s.name = some (raw s) :=
        fun s hs => hUget s (List.mem_reverse.mp hs)
      have hlittleval : packBytesValue (createLittleGo (a :: t).reverse (8 * Lb)) U =
          Except.ok (littleSum raw (a :: t).reverse) := by
        unfold packBytesValue
        rw [packGo_createLittle U raw (a :: t).reverse (8 * Lb) 0
          (fun s hs => hfl s (List.mem_reverse.mp hs)) hget2
          (fun s hs => hrange s (List.mem_reverse.mp hs)) hlittle]
        rw [except_ok_bind, hpadL]
        rw [except_pure_eq]
        congr 1
        simp
      unfold encode_data
      rw [if_neg (show ¬(a :: t).isEmpty = true by simp)]
      show ((a :: t).foldlM
          (fun (acc : Dict ℤ) f =>
            (_encode_field f D true) >>= fun v => pure (dictSet acc f.name v)) []) >>= _ = _
      rw [hU, except_ok_bind]
      show packBytesValue (create_encode_decode_formats (a :: t) Lb).big_endian U >>= _ = _
      rw [show (create_encode_decode_formats (a :: t) Lb).big_endian =
        createBigGo (8 * Lb) (a :: t) 0 from rfl]
      rw [hbigval, except_ok_bind]
      show packBytesValue (create_encode_decode_formats (a :: t) Lb).little_endian U >>= _ = _
      rw [show (create_encode_decode_formats (a :: t) Lb).little_endian =
        createLittleGo (a :: t).reverse (8 * Lb) from rfl]
      rw [hlittleval, except_ok_bind]
      rw [hblenL]
      rfl

theorem extract_big (Lb : Nat) (S : List Sig) (raw : Sig → ℤ)
    (hlen : ∀ u ∈ S, 0 < u.length)
    (hfitb : ∀ u ∈ S, u.byte_order = ByteOrder.big_endian →
      start_bit u + u.length ≤ 8 * Lb)
    (hdisj : ∀ x ∈ S, ∀ u ∈ S, x ≠ u → ∀ i, ¬(claimsBit Lb x i ∧ claimsBit Lb u i))
    (hbig : bigLayoutOK (8 * Lb) S 0)
    (hlittle : littleLayoutOK S.reverse (8 * Lb))
    (hrange : ∀ u ∈ S, inRange u (raw u))
    (s : Sig) (hs : s ∈ S) (hbo : s.byte_order = ByteOrder.big_endian) :
    unpackedVal (bigSum (8 * Lb) raw S ||| reverseBytes Lb (littleSum raw S.reverse))
      s (8 * Lb - start_bit s - s.length) = raw s := by
  have hfit : start_bit s + s.length ≤ 8 * Lb := hfitb s hs hbo
  have hlens : 0 < s.length := hlen s hs
  refine unpackedVal_eq_raw _ s _ (raw s) hlens (hrange s hs) ?_
  refine extract_eq_of_testBit _ _ s.length
    (Nat.mod_lt _ (Nat.pos_pow_of_pos _ (by norm_num))) (rawBits_lt s (raw s)) ?_
  intro t ht
  rw [testBit_extract, decide_eq_true ht, Bool.true_and]
  have hj : 8 * Lb - start_bit s - s.length + t < 8 * Lb := by omega
  rw [Nat.testBit_or]
  have h1 : Nat.testBit (bigSum (8 * Lb) raw S) (8 * Lb - start_bit s - s.length + t) =
      Nat.testBit (rawBits s (raw s)) t :=
    bigSum_testBit_mem (8 * Lb) raw S 0 hbig s hs hbo t ht
  have h2 : Nat.testBit (reverseBytes Lb (littleSum raw S.reverse))
      (8 * Lb - start_bit s - s.length + t) = false := by
    rw [reverseBytes_testBit Lb _ _ hj]
    refine littleSum_testBit_off raw S.reverse (8 * Lb) hlittle _ ?_
    intro u hu hul hcontra
    have hune : s ≠ u := by
      intro he
      rw [← he, hbo] at hul
      cases hul
    refine hdisj s hs u (List.mem_reverse.mp hu) hune
      (8 * Lb - start_bit s - s.length + t)
      ⟨⟨hj, Or.inl ⟨hbo, by omega, by omega⟩⟩,
       ⟨hj, Or.inr ⟨hul, hcontra.1, hcontra.2⟩⟩⟩
  rw [h1, h2, Bool.or_false]

theorem extract_little (Lb : Nat) (S : List Sig) (raw : Sig → ℤ)
    (hlen : ∀ u ∈ S, 0 < u.length)
    (hfitl : ∀ u ∈ S, u.byte_order = ByteOrder.little_endian →
      u.start + u.length ≤ 8 * Lb)
    (hdisj : ∀ x ∈ S, ∀ u ∈ S, x ≠ u → ∀ i, ¬(claimsBit Lb x i ∧ claimsBit Lb u i))
    (hbig : bigLayoutOK (8 * Lb) S 0)
    (hlittle : littleLayoutOK S.reverse (8 * Lb))
    (hrange : ∀ u ∈ S, inRange u (raw u))
    (s : Sig) (hs : s ∈ S) (hbo : s.byte_order = ByteOrder.little_endian) :
    unpackedVal (reverseBytes Lb
        (bigSum (8 * Lb) raw S ||| reverseBytes Lb (littleSum raw S.reverse)))
      s s.start = raw s := by
  have hfit : s.start + s.length ≤ 8 * Lb := hfitl s hs hbo
  have hlens : 0 < s.length := hlen s hs
  refine unpackedVal_eq_raw _ s _ (raw s) hlens (hrange s hs) ?_
  refine extract_eq_of_testBit _ _ s.length
    (Nat.mod_lt _ (Nat.pos_pow_of_pos _ (by norm_num))) (rawBits_lt s (raw s)) ?_
  intro t ht
  rw [testBit_extract, decide_eq_true ht, Bool.true_and]
  have hst : s.start + t < 8 * Lb := by omega
  rw [reverseBytes_testBit Lb _ _ hst]
  have hjlt : revIdx Lb (s.start + t) < 8 * Lb := revIdx_lt Lb _ hst
  have hinv : revIdx Lb (revIdx Lb (s.start + t)) = s.start + t := revIdx_invol Lb _ hst
  rw [Nat.testBit_or]
  have h1 : Nat.testBit (bigSum (8 * Lb) raw S) (revIdx Lb (s.start + t)) = false := by
    refine bigSum_testBit_off (8 * Lb) raw S 0 hbig _ ?_
    intro u hu hub hcontra
    have hune : s ≠ u := by
      intro he
      rw [← he, hbo] at hub
      cases hub
    refine hdisj s hs u hu hune (revIdx Lb (s.start + t))
      ⟨⟨hjlt, Or.inr ⟨hbo, by omega, by omega⟩⟩,
       ⟨hjlt, Or.inl ⟨hub, hcontra.1, hcontra.2⟩⟩⟩
  have h2 : Nat.testBit (reverseBytes Lb (littleSum raw S.reverse))
      (revIdx Lb (s.start + t)) = Nat.testBit (rawBits s (raw s)) t := by
    rw [reverseBytes_testBit Lb _ _ hjlt, hinv]
    exact littleSum_testBit_mem raw S.reverse (8 * Lb) hlittle s
      (List.mem_reverse.mpr hs) hbo t ht
  rw [h1, h2, Bool.false_or]

theorem decode_data_value (S : List Sig) (Lb : Nat) (raw : Sig → ℤ) (enc : Nat)
    (hfl : ∀ s ∈ S, s.is_float = false)
    (hnd : (S.map Sig.name).Nodup)
    (hbig : bigLayoutOK (8 * Lb) S 0)
    (hlittle : littleLayoutOK S.reverse (8 * Lb))
    (henclt : enc < 2 ^ (8 * Lb))
    (hvalbig : ∀ s ∈ S, s.byte_order = ByteOrder.big_endian →
      unpackedVal enc s (8 * Lb - start_bit s - s.length) = raw s)
    (hvallittle : ∀ s ∈ S, s.byte_order = ByteOrder.little_endian →
      unpackedVal (reverseBytes Lb enc) s s.start = raw s) :
    decode_data (natToBytes Lb enc) S (create_encode_decode_formats S Lb) false true =
      Except.ok (S.map (fun f => (f.name, _decode_field f (raw f) false true))) := by
  have hndrev : (S.reverse.map Sig.name).Nodup := by
    rw [List.map_reverse]
    exact List.nodup_reverse.mpr hnd
  have hflrev : ∀ s ∈ S.reverse, s.is_float = false :=
    fun s hs => hfl s (List.mem_reverse.mp hs)
  have hdlen : (natToBytes Lb enc).length = Lb := natToBytes_length Lb enc
  have hb2n : bytesToNat (natToBytes Lb enc) = enc := bytesToNat_natToBytes Lb enc henclt
  have hb2nr : bytesToNat (natToBytes Lb enc).reverse = reverseBytes Lb enc :=
    bytesToNat_reverse_natToBytes Lb enc
  have hitemsB : itemsTotal (createBigGo (8 * Lb) S 0) = 8 * Lb := by
    rw [itemsTotal_createBig (8 * Lb) S 0 hbig]
    omega
  have hitemsL : itemsTotal (createLittleGo S.reverse (8 * Lb)) = 8 * Lb :=
    itemsTotal_createLittle S.reverse (8 * Lb) hlittle
  obtain ⟨D1, hD1, hD1char⟩ := unpackGo_createBig (8 * Lb) enc S 0 [] hfl hbig
  obtain ⟨D2, hD2, hD2char⟩ := unpackGo_createLittle (8 * Lb) (reverseBytes Lb enc)
    S.reverse (8 * Lb) [] hflrev hlittle (le_refl _)
  rw [Nat.sub_self] at hD2
  have hnameinj : ∀ x ∈ S, ∀ y ∈ S, x.name = y.name → x = y :=
    List.inj_on_of_nodup_map hnd
  have hlitnames : ((S.reverse.filter
      (fun s => s.byte_order == ByteOrder.little_endian)).map Sig.name).Nodup :=
    ((List.filter_sublist _).map Sig.name).nodup hndrev
  have hbignames : ((S.filter
      (fun s => s.byte_order == ByteOrder.big_endian)).map Sig.name).Nodup :=
    ((List.filter_sublist _).map Sig.name).nodup hnd
  have hD2keys : D2.map Prod.fst =
      (S.reverse.filter (fun s => s.byte_order == ByteOrder.little_endian)).map Sig.name := by
    have hcond : ((([] : Dict ℤ).map Prod.fst) ++
        (createLittleGo S.reverse (8 * Lb)).filterMap
          (fun it => match it with
            | PackItem.pad _ => none
            | PackItem.fld s => some s.name)).Nodup := by
      rw [createLittleGo_names, List.map_nil, List.nil_append]
      exact hlitnames
    have := unpackGo_keys (reverseBytes Lb enc) (8 * Lb)
      (createLittleGo S.reverse (8 * Lb)) 0 [] D2 hcond hD2
    rw [this, createLittleGo_names, List.map_nil, List.nil_append]
  have hD2keysnd : (D2.map Prod.fst).Nodup := by
    rw [hD2keys]
    exact hlitnames
  have hgetD2little : ∀ s ∈ S, s.byte_order = ByteOrder.little_endian →
      dictGet D2 s.name = some (unpackedVal (reverseBytes Lb enc) s s.start) := by
    intro s hs hbo
    rw [hD2char s.name]
    have hsin : s ∈ (S.reverse.filter
        (fun u => u.byte_order == ByteOrder.little_endian)).reverse := by
      rw [List.mem_reverse, List.mem_filter]
      exact ⟨List.mem_reverse.mpr hs, by simp [hbo]⟩
    have hndrf : (((S.reverse.filter
        (fun u => u.byte_order == ByteOrder.little_endian)).reverse).map Sig.name).Nodup := by
      rw [List.map_reverse]
      exact List.nodup_reverse.mpr hlitnames
    rw [find_name_self _ hndrf s hsin]
  have hgetD2big : ∀ s ∈ S, s.byte_order = ByteOrder.big_endian →
      dictGet D2 s.name = none := by
    intro s hs hbo
    rw [hD2char s.name]
    have hfind : ((S.reverse.filter
        (fun u => u.byte_order == ByteOrder.little_endian)).reverse).find?
        (fun u => u.name == s.name) = none := by
      refine List.find?_eq_none.mpr ?_
      intro u hu
      rw [List.mem_reverse, List.mem_filter] at hu
      have hul : u.byte_order = ByteOrder.little_endian := by
        have := hu.2
        simpa using this
      intro hbeq
      have hun : u.name = s.name := eq_of_beq hbeq
      have : u = s := hnameinj u (List.mem_reverse.mp hu.1) s hs hun
      rw [this, hbo] at hul
      cases hul
    rw [hfind]
    rfl
  have hgetD1big : ∀ s ∈ S, s.byte_order = ByteOrder.big_endian →
      dictGet D1 s.name = some (unpackedVal enc s (8 * Lb - start_bit s - s.length)) := by
    intro s hs hbo
    rw [hD1char s.name]
    have hsin : s ∈ (S.filter
        (fun u => u.byte_order == ByteOrder.big_endian)).reverse := by
      rw [List.mem_reverse, List.mem_filter]
      exact ⟨hs, by simp [hbo]⟩
    have hndrf : (((S.filter
        (fun u => u.byte_order == ByteOrder.big_endian)).reverse).map Sig.name).Nodup := by
      rw [List.map_reverse]
      exact List.nodup_reverse.mpr hbignames
    rw [find_name_self _ hndrf s hsin]
  have hg : ∀ f ∈ S, dictGet (dictUpdate D1 D2) f.name = some (raw f) := by
    intro f hf
    rw [dictGet_dictUpdate_nodup D1 D2 hD2keysnd f.name]
    cases hbo : f.byte_order with
    | little_endian =>
        rw [hgetD2little f hf hbo]
        rw [hvallittle f hf hbo]
    | big_endian =>
        rw [hgetD2big f hf hbo]
        rw [hgetD1big f hf hbo]
        rw [hvalbig f hf hbo]
  have hu1 : unpackFields (create_encode_decode_formats S Lb).big_endian
      (bytesToNat (natToBytes Lb enc)) (8 * (natToBytes Lb enc).length) = Except.ok D1 := by
    rw [show (create_encode_decode_formats S Lb).big_endian =
      createBigGo (8 * Lb) S 0 from rfl, hb2n, hdlen]
    unfold unpackFields
    rw [if_pos (le_of_eq hitemsB)]
    exact hD1
  have hu2 : unpackFields (create_encode_decode_formats S Lb).little_endian
      (bytesToNat (natToBytes Lb enc).reverse) (8 * (natToBytes Lb enc).length) =
      Except.ok D2 := by
    rw [show (create_encode_decode_formats S Lb).little_endian =
      createLittleGo S.reverse (8 * Lb) from rfl, hb2nr, hdlen]
    unfold unpackFields
    rw [if_pos (le_of_eq hitemsL)]
    exact hD2
  unfold decode_data
  rw [hu1, except_ok_bind, hu2, except_ok_bind]
  dsimp only
  rw [decode_fold_concrete (dictUpdate D1 D2) false true raw S [] hg (fun f _ => rfl) hnd]
  rw [List.nil_append]


/-- C1, as amended: for a multiplexing-free message whose non-float signals
have pairwise disjoint bit footprints that fit the frame, distinct names and
non-zero scales, and an input dict assigning each signal a numeric value that
passes the strict checks and whose exact scaled quotient is an integer, the
dict computed by Message._decode on the bytes produced by Message.encode
(scaling, no choices) assigns every signal its original value. -/

theorem c1_roundtrip_amended (m : Msg) (D : Dict PyVal) (vals : Sig → ℚ)
    (hnomux : ∀ s ∈ m.signals, s.multiplexer_signal = none ∧ s.is_multiplexer = false)
    (hnf : ∀ s ∈ m.signals, s.is_float = false)
    (hlen : ∀ s ∈ m.signals, 0 < s.length)
    (hnodup : (m.signals.map Sig.name).Nodup)
    (hfit : ∀ s ∈ m.signals,
      (s.byte_order = ByteOrder.big_endian → start_bit s + s.length ≤ 8 * m.length) ∧
      (s.byte_order = ByteOrder.little_endian → s.start + s.length ≤ 8 * m.length))
    (hdisj : ∀ s ∈ m.signals, ∀ u ∈ m.signals, s ≠ u →
      ∀ i, i < 8 * m.length → ¬(claimsBit m.length s i ∧ claimsBit m.length u i))
    (hvals : ∀ s ∈ m.signals, dictGet D s.name = some (PyVal.num (vals s)))
    (hscale : ∀ s ∈ m.signals, s.scale ≠ 0)
    (hden : ∀ s ∈ m.signals, ((vals s - s.offset) / s.scale).den = 1)
    (hrange : ∀ s ∈ m.signals, inRange s (((vals s - s.offset) / s.scale).num))
    (hminmax : ∀ s ∈ m.signals,
      (∀ mn, s.minimum = some mn → ¬(vals s < mn)) ∧
      (∀ mx, s.maximum = some mx → ¬(mx < vals s))) :
    ∃ b tx dec,
      m.refresh none = Except.ok b ∧
      b.encode D true false true = Except.ok tx ∧
      b.decodeDict tx.bytes false true = Except.ok dec ∧
      dec.map Prod.fst = (sortSignals m.signals).map Sig.name ∧
      ∀ s ∈ m.signals, dictGet dec s.name = some (PyVal.num (vals s)) := by
  obtain ⟨b, hb, hbf, hbn, hbl, hbs, hbc⟩ := refresh_nomux m hnomux hlen hnodup
  have hperm : List.Perm (sortSignals m.signals) m.signals := List.perm_insertionSort _ _
  have hmem : ∀ s, s ∈ sortSignals m.signals ↔ s ∈ m.signals := fun s => hperm.mem_iff
  have hndS : ((sortSignals m.signals).map Sig.name).Nodup :=
    (hperm.map Sig.name).nodup_iff.mpr hnodup
  have hflS : ∀ s ∈ sortSignals m.signals, s.is_float = false :=
    fun s hs => hnf s ((hmem s).mp hs)
  have hlenS : ∀ s ∈ sortSignals m.signals, 0 < s.length :=
    fun s hs => hlen s ((hmem s).mp hs)
  have hrangeS : ∀ s ∈ sortSignals m.signals, inRange s (((vals s - s.offset) / s.scale).num) :=
    fun s hs => hrange s ((hmem s).mp hs)
  have hdisjS : ∀ x ∈ sortSignals m.signals, ∀ u ∈ sortSignals m.signals, x ≠ u →
      ∀ i, ¬(claimsBit m.length x i ∧ claimsBit m.length u i) := by
    intro x hx u hu hne i
    by_cases hi : i < 8 * m.length
    · exact hdisj x ((hmem x).mp hx) u ((hmem u).mp hu) hne i hi
    · intro hc
      exact hi hc.1.1
  have hsorted : (sortSignals m.signals).Pairwise (fun a b => start_bit a ≤ start_bit b) :=
    List.sorted_insertionSort _ _
  have hsortRev : (sortSignals m.signals).reverse.Pairwise
      (fun a b => start_bit b ≤ start_bit a) :=
    List.pairwise_reverse.mpr hsorted
  have hbigL : bigLayoutOK (8 * m.length) (sortSignals m.signals) 0 :=
    bigLayoutOK_of_sorted m.length (sortSignals m.signals) 0 hsorted hndS hlenS
      (fun s hs hbo => (hfit s ((hmem s).mp hs)).1 hbo) hdisjS
      (fun _ _ _ => Nat.zero_le _) (Nat.zero_le _)
  have hndRev : ((sortSignals m.signals).reverse.map Sig.name).Nodup := by
    rw [List.map_reverse]
    exact List.nodup_reverse.mpr hndS
  have hlitL : littleLayoutOK (sortSignals m.signals).reverse (8 * m.length) :=
    littleLayoutOK_of_sorted m.length (sortSignals m.signals).reverse (8 * m.length)
      hsortRev hndRev
      (fun s hs => hlenS s (List.mem_reverse.mp hs))
      (fun s hs hbo => (hfit s ((hmem s).mp (List.mem_reverse.mp hs))).2 hbo)
      (fun x hx u hu hne i => hdisjS x (List.mem_reverse.mp hx) u (List.mem_reverse.mp hu) hne i)
      (fun s hs hbo => (hfit s ((hmem s).mp (List.mem_reverse.mp hs))).2 hbo)
  have hencf : ∀ f ∈ sortSignals m.signals,
      _encode_field f D true = Except.ok (((vals f - f.offset) / f.scale).num) := by
    intro f hf
    have hmf : f ∈ m.signals := (hmem f).mp hf
    unfold _encode_field
    rw [hvals f hmf]
    dsimp only
    rw [if_pos (show (true : Bool) = true from rfl)]
    rw [if_neg (show ¬f.is_float = true by rw [hnf f hmf]; intro hx; cases hx)]
    rw [if_neg (hscale f hmf)]
    have hq : roundHalfEven ((vals f - f.offset) / f.scale) =
        ((vals f - f.offset) / f.scale).num := by
      conv_lhs => rw [← rat_num_cast_of_den_one _ (hden f hmf)]
      rw [roundHalfEven_intCast]
    rw [hq]
  have henc_data : encode_data D (sortSignals m.signals)
      (create_encode_decode_formats (sortSignals m.signals) m.length) true =
      Except.ok (bigSum (8 * m.length) (fun s => ((vals s - s.offset) / s.scale).num)
        (sortSignals m.signals) |||
        reverseBytes m.length ((littleSum (fun s => ((vals s - s.offset) / s.scale).num)
          (sortSignals m.signals).reverse))) :=
    encode_data_value (sortSignals m.signals) m.length D _ hflS hndS hencf hrangeS hbigL hlitL
  have hcheck : _check_signals (sortSignals m.signals) D true = Except.ok D :=
    check_signals_noop _ D true (fun s hs =>
      ⟨vals s, hvals s ((hmem s).mp hs), (hminmax s ((hmem s).mp hs)).1,
        (hminmax s ((hmem s).mp hs)).2⟩)
  have henclt : (bigSum (8 * m.length) (fun s => ((vals s - s.offset) / s.scale).num)
      (sortSignals m.signals) |||
      reverseBytes m.length ((littleSum (fun s => ((vals s - s.offset) / s.scale).num)
        (sortSignals m.signals).reverse))) < 2 ^ (8 * m.length) := by
    refine Nat.or_lt_two_pow ?_ ?_
    · have := bigSum_lt (8 * m.length) (fun s => ((vals s - s.offset) / s.scale).num)
        (sortSignals m.signals) 0 hbigL
      rw [Nat.sub_zero] at this
      exact this
    · exact reverseBytes_lt m.length _
  have hnode : encodeNode b.signals (b.signals.length + 1) b.codecs D true true =
      Except.ok (D,
        bigSum (8 * m.length) (fun s => ((vals s - s.offset) / s.scale).num)
          (sortSignals m.signals) |||
          reverseBytes m.length ((littleSum (fun s => ((vals s - s.offset) / s.scale).num)
            (sortSignals m.signals).reverse)),
        (create_encode_decode_formats (sortSignals m.signals) m.length).padding_mask) := by
    rw [hbs, hbc]
    unfold encodeNode
    rw [if_pos (show (true : Bool) = true from rfl)]
    rw [hcheck, except_ok_bind, henc_data, except_ok_bind]
    rfl
  refine ⟨b,
    { bytes := natToBytes m.length
        (bigSum (8 * m.length) (fun s => ((vals s - s.offset) / s.scale).num)
          (sortSignals m.signals) |||
          reverseBytes m.length ((littleSum (fun s => ((vals s - s.offset) / s.scale).num)
            (sortSignals m.signals).reverse))),
      frame_id := m.frame_id },
    (sortSignals m.signals).map (fun f =>
      (f.name, _decode_field f (((vals f - f.offset) / f.scale).num) false true)),
    hb, ?_, ?_, ?_, ?_⟩
  · unfold BuiltMsg.encode
    rw [hnode, except_ok_bind]
    dsimp only
    rw [if_neg (show ¬false = true from fun hx => by cases hx)]
    rw [hbl, Nat.mod_eq_of_lt henclt, hbf]
    rfl
  · unfold BuiltMsg.decodeDict
    rw [hbs, hbc, hbl]
    dsimp only
    have htake : ∀ (l : List Nat), l.length = m.length → l.take m.length = l := by
      intro l hl
      rw [← hl]
      exact List.take_length l
    rw [htake _ (natToBytes_length _ _)]
    unfold decodeNode
    rw [decode_data_value (sortSignals m.signals) m.length
      (fun s => ((vals s - s.offset) / s.scale).num) _ hflS hndS hbigL hlitL henclt
      (fun s hs hbo => extract_big m.length (sortSignals m.signals) _ hlenS
        (fun u hu hub => (hfit u ((hmem u).mp hu)).1 hub) hdisjS hbigL hlitL hrangeS s hs hbo)
      (fun s hs hbo => extract_little m.length (sortSignals m.signals) _ hlenS
        (fun u hu hub => (hfit u ((hmem u).mp hu)).2 hub) hdisjS hbigL hlitL hrangeS s hs hbo)]
    rw [except_ok_bind]
    rfl
  · rw [List.map_map]
    rfl
  · intro s hms
    have hsS : s ∈ sortSignals m.signals := (hmem s).mpr hms
    rw [dictGet_map_pairs (fun f => _decode_field f (((vals f - f.offset) / f.scale).num)
      false true) (sortSignals m.signals) hndS s hsS]
    have hdf : _decode_field s (((vals s - s.offset) / s.scale).num) false true =
        PyVal.num (s.scale * ((((vals s - s.offset) / s.scale).num : ℤ) : ℚ) + s.offset) := rfl
    rw [hdf]
    congr 1
    congr 1
    rw [rat_num_cast_of_den_one _ (hden s hms)]
    rw [mul_comm, div_mul_cancel₀ _ (hscale s hms)]
    rw [sub_add_cancel]

/-- Witness for the amended C1 round trip: a concrete two-byte message with a
big-endian scaled signal, a little-endian signed signal and a little-endian
unsigned signal round-trips the dict mapping Rt1 to 6, Rt2 to -3 and Rt3
to 5. -/
theorem c1_roundtrip_amended_witness :
    ∃ b tx dec,
      msgRt.refresh none = Except.ok b ∧
      b.encode dataRt true false true = Except.ok tx ∧
      b.decodeDict tx.bytes false true = Except.ok dec ∧
      dec.map Prod.fst = (sortSignals msgRt.signals).map Sig.name ∧
      ∀ s ∈ msgRt.signals, dictGet dec s.name = some (PyVal.num (valsRt s)) :=
  c1_roundtrip_amended msgRt dataRt valsRt
    (by decide) (by decide) (by decide) (by decide) (by decide)
    (by decide)
    (by with_unfolding_all decide)
    (by with_unfolding_all decide)
    (by with_unfolding_all decide)
    (by with_unfolding_all decide)
    (by with_unfolding_all decide)

end VectorDbc
